import Mathlib

/-!
Verification development for a dynamical-decoupling (DD) insertion pipeline.

The development shallowly embeds the pipeline's core:
time-unit conversion helpers, DD components and sequences with their
duration-fitting algorithm, and the four graph-rewrite passes
(barriers-to-delays, merge-delays, fundamental-state flagging,
delay-to-DD).  Python floats are modelled as exact rationals, Python
lists indexed by qubit as total functions out of `ℕ` updated pointwise,
and raised exceptions as `Except.error`.
-/

/-- Time units accepted by the conversion helpers (`dt` is the hardware
tick; the others are fixed powers-of-ten fractions of a second). -/
inductive TimeUnit where
  | ps
  | ns
  | us
  | ms
  | s
  | dtu
deriving DecidableEq, Repr

/-- The `_units_conversion_to_seconds` table.  The Python dict has no
entry for `"dt"`; that key is never looked up (the `dt` case is handled
before the lookup in every caller), so the `dtu` branch here is dead. -/
def unitsConversionToSeconds : TimeUnit → ℚ
  | .ps => 1 / 10 ^ 12
  | .ns => 1 / 10 ^ 9
  | .us => 1 / 10 ^ 6
  | .ms => 1 / 10 ^ 3
  | .s => 1
  | .dtu => 0

/-- `to_dt_float`: convert a time in the given unit to a (fractional)
number of ticks; the `dt` unit returns the value unchanged, the other
units convert through seconds and divide by the tick length. -/
def toDtFloat (time : ℚ) (u : TimeUnit) (dt : ℚ) : ℚ :=
  match u with
  | .dtu => time
  | _ => unitsConversionToSeconds u * time / dt

/-- Python `int(...)` on a float: truncation toward zero. -/
def pyTrunc (q : ℚ) : ℤ :=
  if 0 ≤ q then ⌊q⌋ else ⌈q⌉

/-- `to_dt_rounded`: `int(to_dt_float(...))`. -/
def toDtRounded (time : ℚ) (u : TimeUnit) (dt : ℚ) : ℤ :=
  pyTrunc (toDtFloat time u dt)

/-- `to_dt_assert_exact`: convert to ticks and raise (`RuntimeError`,
the spec's `TimingAlignmentError`) when `|dt_float − int(dt_float)|`
exceeds the allowed absolute error.  Note the code compares against the
truncation `int(dt_float)`, not the nearest integer. -/
def toDtAssertExact (time : ℚ) (u : TimeUnit) (dt : ℚ) (absoluteError : ℚ) :
    Except String ℤ :=
  let dtFloat : ℚ := toDtFloat time u dt
  if absoluteError < |dtFloat - (pyTrunc dtFloat : ℚ)| then
    .error "RuntimeError: given time is not a multiple of dt"
  else
    .ok (pyTrunc dtFloat)

/-- Python `round(...)`: round half to even. -/
def pyRound {α : Type} [LinearOrderedField α] [FloorRing α] (x : α) : ℤ :=
  let f : ℤ := ⌊x⌋
  if x - (f : α) < 1 / 2 then f
  else if (1 : α) / 2 < x - (f : α) then f + 1
  else if f % 2 = 0 then f else f + 1

/-- One operation node of the operation graph (a `DAGCircuit` op node or
a `QuantumCircuit` instruction): a name, the qubit indices it touches,
and — meaningful only for delay nodes — a duration and its unit. -/
structure OpNode where
  name : String
  qargs : List ℕ
  duration : ℚ
  tunit : TimeUnit
deriving DecidableEq, Repr

/-- A named operation node (duration fields irrelevant). -/
def opNode (name : String) (qargs : List ℕ) : OpNode :=
  ⟨name, qargs, 0, .dtu⟩

/-- A `Delay(d, unit="dt")` node on one qubit. -/
def delayNode (d : ℤ) (q : ℕ) : OpNode :=
  ⟨"delay", [q], (d : ℚ), .dtu⟩

/-- An operation graph / circuit: the operation nodes in topological
order plus the qubit count and the pulse-calibration table (gate name to
an opaque calibration payload). -/
structure Circuit where
  nqubits : ℕ
  nodes : List OpNode
  cals : List (String × ℕ)
deriving DecidableEq, Repr

/-- Pointwise update of a qubit-indexed table (Python list assignment). -/
def upd {α : Type} (f : ℕ → α) (i : ℕ) (v : α) : ℕ → α :=
  fun j => if j = i then v else f j

/-- Python `max` over a list: `none` (a raised `ValueError`) when empty. -/
def pyMax : List ℤ → Option ℤ
  | [] => none
  | x :: xs =>
    match pyMax xs with
    | none => some x
    | some m => some (max x m)

/-- Python dict insertion-or-overwrite for the calibration table
(`output._calibrations[gate] = cal`). -/
def calUpdate (cals : List (String × ℕ)) (k : String) (v : ℕ) :
    List (String × ℕ) :=
  if cals.any (fun p => p.1 == k) then
    cals.map (fun p => if p.1 == k then (k, v) else p)
  else cals ++ [(k, v)]

/-- Name of the custom gate a pulse component appends
(`schedule.name + "_" + "_".join(map(str, qargs))`). -/
def pulseGateName (n : String) (qargs : List ℕ) : String :=
  n ++ "_" ++ String.intercalate "_" (qargs.map toString)

/-- A dynamical-decoupling component.  The three variants of the Python
class hierarchy: a scalable delay, a fixed gate (carrying its
basis-translated body and its per-qubit duration map), and a fixed
pulse (carrying its per-qubit duration map and an opaque calibration
payload identifier per qubit tuple). -/
inductive DDComponent : Type where
  | delayC (pauseTime : ℤ)
  | gateC (gname : String) (durs : List ℕ → ℤ) (body : List OpNode)
  | pulseC (pname : String) (durs : List ℕ → ℤ) (calId : List ℕ → ℕ)

/-- `is_scalable`: only the delay variant is scalable. -/
def DDComponent.is_scalable : DDComponent → Bool
  | .delayC _ => true
  | .gateC _ _ _ => false
  | .pulseC _ _ _ => false

/-- `duration(qargs)`: the component's duration in ticks on the given
hardware qubits. -/
def DDComponent.duration (c : DDComponent) (qargs : List ℕ) : ℤ :=
  match c with
  | .delayC p => p
  | .gateC _ durs _ => durs qargs
  | .pulseC _ durs _ => durs qargs

/-- `scale_to(duration)`: a delay is rebuilt at the requested duration;
the gate and pulse variants raise `ComponentNotScalable`. -/
def DDComponent.scale_to : DDComponent → ℤ → Except String DDComponent
  | .delayC _, d => .ok (.delayC d)
  | .gateC g _ _, _ => .error ("ComponentNotScalable: " ++ g)
  | .pulseC p _ _, _ => .error ("ComponentNotScalable: " ++ p)

/-- Remap the local qubit indices of a fragment instruction onto the
target qubits (`QuantumCircuit.compose(..., qubits=...)`). -/
def remapQargs (target : List ℕ) (node : OpNode) : OpNode :=
  ⟨node.name, node.qargs.map (fun i => target.getD i 0), node.duration, node.tunit⟩

/-- `apply(dd_sequence, qargs, local_qargs)`: append this component's
realization onto the fragment circuit at the local qubits.  A delay
appends one delay instruction of its own duration; a gate composes its
basis-translated body; a pulse appends its custom gate and registers
the gate's calibration. -/
def DDComponent.apply (c : DDComponent) (qc : Circuit) (qargs : List ℕ)
    (localQ : List ℕ) : Circuit :=
  match c with
  | .delayC p =>
      ⟨qc.nqubits, qc.nodes ++ [⟨"delay", localQ, (p : ℚ), .dtu⟩], qc.cals⟩
  | .gateC _ _ body =>
      ⟨qc.nqubits, qc.nodes ++ body.map (remapQargs localQ), qc.cals⟩
  | .pulseC p _ calId =>
      ⟨qc.nqubits, qc.nodes ++ [⟨pulseGateName p qargs, localQ, 0, .dtu⟩],
        calUpdate qc.cals (pulseGateName p qargs) (calId qargs)⟩

/-- The instruction list `apply` appends (observable part of `apply`). -/
def DDComponent.appliedNodes (c : DDComponent) (qargs : List ℕ)
    (localQ : List ℕ) : List OpNode :=
  match c with
  | .delayC p => [⟨"delay", localQ, (p : ℚ), .dtu⟩]
  | .gateC _ _ body => body.map (remapQargs localQ)
  | .pulseC p _ _ => [⟨pulseGateName p qargs, localQ, 0, .dtu⟩]

/-- The calibration-table effect of `apply` (only the pulse variant adds
a calibration). -/
def DDComponent.applyCalsEffect (c : DDComponent) (qargs : List ℕ)
    (cals : List (String × ℕ)) : List (String × ℕ) :=
  match c with
  | .delayC _ => cals
  | .gateC _ _ _ => cals
  | .pulseC p _ calId => calUpdate cals (pulseGateName p qargs) (calId qargs)

/-- A dynamical-decoupling sequence: the stored component list and the
stored relative-scale list (`None` for non-scalable components).  The
scale type is a parameter so that the Uhrig factory, whose weights are
real sine expressions, shares the construction. -/
structure DDSequence (α : Type) where
  components : List DDComponent
  relativeScales : List (Option α)

/-- `_add_component`: append a component; a scalable component stores
its given scale (default `1` when none was given), a non-scalable one
stores `None` regardless of the given scale. -/
def addComponent {α : Type} [One α] (seq : DDSequence α) (c : DDComponent)
    (relativeScale : Option α) : DDSequence α :=
  ⟨seq.components ++ [c],
   seq.relativeScales ++
     [if c.is_scalable then some (relativeScale.getD 1) else none]⟩

/-- The effective scale list zipped against the component list:
`relative_scales or itertools.repeat(None)` — an absent or empty scale
list (Python falsiness of `[]`) behaves as all-`None`. -/
def mkScalesList {α : Type} (sequence : List DDComponent)
    (relativeScales : Option (List (Option α))) : List (Option α) :=
  match relativeScales with
  | some l => if l.isEmpty then sequence.map (fun _ => none) else l
  | none => sequence.map (fun _ => none)

/-- The `BaseDynamicalDecouplingSequence` constructor:
`zip(sequence, relative_scales or itertools.repeat(None))` followed by
`_add_component` on each pair. -/
def mkSequence {α : Type} [One α] (sequence : List DDComponent)
    (relativeScales : Option (List (Option α))) : DDSequence α :=
  (sequence.zip (mkScalesList sequence relativeScales)).foldl
    (fun s p => addComponent s p.1 p.2) ⟨[], []⟩

/-- The fixed-duration sum: total duration of the non-scalable
components on the given qubits. -/
def fixedDurationDt {α : Type} (seq : DDSequence α) (qargs : List ℕ) : ℤ :=
  ((seq.components.filter (fun c => !c.is_scalable)).map
    (fun c => c.duration qargs)).sum

/-- `can_be_used_on_duration`: the sequence fits a delay window iff the
window strictly exceeds the fixed-duration sum. -/
def DDSequence.can_be_used_on_duration {α : Type} (seq : DDSequence α)
    (durationDt : ℤ) (qargs : List ℕ) : Bool :=
  fixedDurationDt seq qargs < durationDt

/-- `circuit(total_duration_dt, qargs)`: build the fragment that
realizes the scheme at the requested total duration.  Each scalable
component is rescaled to `round(flex · w / W)` where `flex` is the
requested duration minus the fixed-duration sum and `W` the total
scalable weight; each non-scalable component is applied unchanged, in
the stored order.  A scalable component whose stored scale is `None`
would raise a `TypeError` in Python (`None * float`). -/
def DDSequence.circuit {α : Type} [LinearOrderedField α] [FloorRing α]
    (seq : DDSequence α) (totalDurationDt : ℤ) (qargs : List ℕ) :
    Except String Circuit :=
  let totalScale : α := (seq.relativeScales.filterMap id).sum
  let fixedDt : ℤ := fixedDurationDt seq qargs
  let durationToScaleDt : α := (totalDurationDt : α) - (fixedDt : α)
  (seq.components.zip seq.relativeScales).foldlM
    (fun qc p =>
      if p.1.is_scalable then
        match p.2 with
        | none => .error "TypeError: unsupported operand"
        | some w => do
          let componentDurationDt : ℤ :=
            pyRound (durationToScaleDt * w / totalScale)
          let c2 ← p.1.scale_to componentDurationDt
          pure (c2.apply qc qargs [0])
      else
        pure (p.1.apply qc qargs [0]))
    ⟨1, [], []⟩

/-- Per-backend calibration data: calibrated gate lengths in seconds. -/
structure BackendProps where
  gateLength : String → List ℕ → ℚ

/-- Output-insertion discipline of the barriers-to-delays pass:
`apply_operation_back` appends, `apply_operation_front` prepends. -/
def InsertFun : Type := List OpNode → OpNode → List OpNode

/-- `DAGCircuit.apply_operation_back`. -/
def insertBack : InsertFun := fun out n => out ++ [n]

/-- `DAGCircuit.apply_operation_front`. -/
def insertFront : InsertFun := fun out n => n :: out

/-- State threaded through the barriers-to-delays traversal: the
per-qubit current time in ticks and the output node list. -/
structure BTDState where
  times : ℕ → ℤ
  out : List OpNode

/-- The per-qubit times as the Python list `times_dt`. -/
def timesList (nq : ℕ) (t : ℕ → ℤ) : List ℤ :=
  (List.range nq).map t

/-- The delay-insertion loop shared by the barrier branch and the final
flush: for each qubit index in order, insert a `Delay(m − t(i), "dt")`
through the configured insertion method. -/
def btdDelayFill (ins : InsertFun) (m : ℤ) (t : ℕ → ℤ) (nq : ℕ)
    (out : List OpNode) : List OpNode :=
  (List.range nq).foldl (fun acc i => ins acc (delayNode (m - t i) i)) out

/-- Barrier branch: compute the maximum current time over all qubits,
insert a delay of the lag on every qubit (note: on every qubit, with no
`t(q) < m` test, so caught-up qubits receive a zero-duration delay),
and set every qubit's current time to the maximum. -/
def btdBarrier (ins : InsertFun) (nq : ℕ) (st : BTDState) :
    Except String BTDState :=
  match pyMax (timesList nq st.times) with
  | none => .error "ValueError: max of empty sequence"
  | some maxTimeDt =>
    .ok ⟨fun _ => maxTimeDt, btdDelayFill ins maxTimeDt st.times nq st.out⟩

/-- One iteration of the named-operation branch's inner loop: insert a
catch-up delay when the qubit is late, then set its time to the shared
end time `maxStart + execTime`. -/
def btdOpStep (ins : InsertFun) (maxStart execTime : ℤ) (s : BTDState)
    (q : ℕ) : BTDState :=
  let s' : BTDState :=
    if s.times q < maxStart then
      ⟨s.times, ins s.out (delayNode (maxStart - s.times q) q)⟩
    else s
  ⟨upd s'.times q (maxStart + execTime), s'.out⟩

/-- Inner loop of the named-operation branch over the involved qubits. -/
def btdOpFold (ins : InsertFun) (maxStart execTime : ℤ) (st : BTDState)
    (involved : List ℕ) : BTDState :=
  involved.foldl (btdOpStep ins maxStart execTime) st

/-- Named-operation branch: resolve the gate duration through
`to_dt_assert_exact`, align the involved qubits on their common start
time with catch-up delays, advance them past the operation, and insert
the operation. -/
def btdNamedOp (props : BackendProps) (dt : ℚ) (ins : InsertFun)
    (node : OpNode) (st : BTDState) : Except String BTDState := do
  let involved := node.qargs
  let execTime ← toDtAssertExact (props.gateLength node.name involved) .s dt
    (1 / 1000)
  match pyMax (involved.map st.times) with
  | none => .error "ValueError: max of empty sequence"
  | some maxStart =>
    let st2 := btdOpFold ins maxStart execTime st involved
    pure ⟨st2.times, ins st2.out node⟩

/-- One traversal step of the barriers-to-delays pass. -/
def btdStep (props : BackendProps) (dt : ℚ) (ins : InsertFun) (nq : ℕ)
    (st : BTDState) (node : OpNode) : Except String BTDState :=
  if node.name == "barrier" then btdBarrier ins nq st
  else if node.name == "measure" then pure ⟨st.times, ins st.out node⟩
  else btdNamedOp props dt ins node st

/-- Trailing flush of the barriers-to-delays pass: pad every qubit up to
the global maximum current time. -/
def btdFlush (ins : InsertFun) (nq : ℕ) (st : BTDState) :
    Except String (List OpNode) :=
  match pyMax (timesList nq st.times) with
  | none => .error "ValueError: max of empty sequence"
  | some maxTimeDt =>
    .ok (btdDelayFill ins maxTimeDt st.times nq st.out)

/-- `BarriersToDelaysPass.run`: traverse the nodes in topological order
(reversed for ALAP, which also inserts at the front of the output),
expanding barriers into explicit per-qubit delays and padding late
qubits before multi-qubit operations; finally pad all qubits to the
common end time. -/
def BarriersToDelaysPass.run (props : BackendProps) (dt : ℚ)
    (schedulingMethod : String) (dag : Circuit) : Except String Circuit := do
  let nodes := if schedulingMethod == "alap" then dag.nodes.reverse else dag.nodes
  let ins := if schedulingMethod == "alap" then insertFront else insertBack
  let nq := dag.nqubits
  let finalState ← nodes.foldlM (btdStep props dt ins nq) ⟨fun _ => 0, []⟩
  let out ← btdFlush ins nq finalState
  pure ⟨nq, out, dag.cals⟩

/-- State of the merge-delays traversal: the per-qubit float accumulator
of pending idle time and the output node list. -/
structure MDState where
  accs : ℕ → ℚ
  out : List OpNode

/-- Flush loop of the non-delay branch: per involved qubit, emit one
delay of `int(acc)` ticks when the accumulator is strictly positive,
then reset the accumulator. -/
def mdFlushQ (st : MDState) (qargs : List ℕ) : MDState :=
  qargs.foldl
    (fun s q =>
      ⟨upd s.accs q 0,
       if 0 < s.accs q then s.out ++ [delayNode (pyTrunc (s.accs q)) q]
       else s.out⟩)
    st

/-- One traversal step of the merge-delays pass: a delay node only feeds
the accumulators of its qubits; any other node first flushes the
pending delays of its qubits, then is emitted itself. -/
def mdStep (dt : ℚ) (st : MDState) (node : OpNode) : MDState :=
  if node.name == "delay" then
    ⟨node.qargs.foldl
      (fun a q => upd a q (a q + toDtFloat node.duration node.tunit dt))
      st.accs,
     st.out⟩
  else
    let st2 := mdFlushQ st node.qargs
    ⟨st2.accs, st2.out ++ [node]⟩

/-- Trailing flush of the merge-delays pass: emit the remaining positive
accumulators (without resetting them; they are discarded). -/
def mdFlush (nq : ℕ) (st : MDState) : List OpNode :=
  (List.range nq).foldl
    (fun acc i =>
      if 0 < st.accs i then acc ++ [delayNode (pyTrunc (st.accs i)) i]
      else acc)
    st.out

/-- `MergeDelaysPass.run`: coalesce consecutive delays per qubit. -/
def MergeDelaysPass.run (dt : ℚ) (dag : Circuit) : Circuit :=
  ⟨dag.nqubits,
   mdFlush dag.nqubits (dag.nodes.foldl (mdStep dt) ⟨fun _ => 0, []⟩),
   dag.cals⟩

/-- `_IDENTITY_OPERATIONS`. -/
def identityOperationNames : List String := ["id", "delay", "barrier"]

/-- The node kinds whose analysis value is the conjunction of their
qubits' ground flags: `node.name in _IDENTITY_OPERATIONS or node.name
== "reset"`. -/
def isFundamentalKind (node : OpNode) : Bool :=
  identityOperationNames.contains node.name || node.name == "reset"

/-- State of the flagging pass: the per-qubit ground flag and the
recorded analysis values in traversal order. -/
structure FlagState where
  ground : ℕ → Bool
  recorded : List Bool

/-- One step of `FlagFundamentalStateOperations.run`: identity-like
nodes (including reset) record the conjunction of the pre-node ground
flags of their qubits; any other node records `False` and clears its
qubits' flags; a reset additionally sets its qubits' flags back to
`True` after recording. -/
def flagStep (st : FlagState) (node : OpNode) : FlagState :=
  let st1 : FlagState :=
    if isFundamentalKind node then
      ⟨st.ground, st.recorded ++ [node.qargs.all (fun q => st.ground q)]⟩
    else
      ⟨node.qargs.foldl (fun g q => upd g q false) st.ground,
       st.recorded ++ [false]⟩
  if node.name == "reset" then
    ⟨node.qargs.foldl (fun g q => upd g q true) st1.ground, st1.recorded⟩
  else st1

/-- `FlagFundamentalStateOperations.run`: the analysis map, as the list
of recorded booleans in traversal order (one per node). -/
def FlagFundamentalStateOperations.run (dag : Circuit) : List Bool :=
  (dag.nodes.foldl flagStep ⟨fun _ => true, []⟩).recorded

/-- One traversal step of the delay-to-DD pass: a delay whose truncated
tick duration fits the sequence is replaced by the built fragment
(composed onto the delay's qubits, with its calibrations copied into
the output table); any other delay, and every non-delay node, passes
through unchanged. -/
def dtdStep (seq : DDSequence ℚ) (dt : ℚ) (qc : Circuit) (node : OpNode) :
    Except String Circuit :=
  if node.name == "delay" then
    let durationDt : ℤ := toDtRounded node.duration node.tunit dt
    if seq.can_be_used_on_duration durationDt node.qargs then do
      let ddCircuit ← seq.circuit durationDt node.qargs
      pure ⟨qc.nqubits,
        qc.nodes ++ ddCircuit.nodes.map (remapQargs node.qargs),
        ddCircuit.cals.foldl (fun cs p => calUpdate cs p.1 p.2) qc.cals⟩
    else
      pure ⟨qc.nqubits, qc.nodes ++ [node], qc.cals⟩
  else
    pure ⟨qc.nqubits, qc.nodes ++ [node], qc.cals⟩

/-- `DelayToDynamicalDecouplingSequencePass.run`. -/
def DelayToDDPass.run (seq : DDSequence ℚ) (dt : ℚ) (dag : Circuit) :
    Except String Circuit :=
  dag.nodes.foldlM (dtdStep seq dt) ⟨dag.nqubits, [], dag.cals⟩

/-- The Uhrig timing breakpoints `sin²(π · i / (2 n))`. -/
noncomputable def uddOffset (n : ℕ) (i : ℕ) : ℝ :=
  Real.sin (Real.pi * (i : ℝ) / (2 * (n : ℝ))) ^ 2

/-- `BaseUhrigDynamicalDecouplingSequence.__init__`: build the component
and scale lists (a scalable delay before the pulse, between consecutive
pulses and after the last pulse for `n = 1`; for `n ≥ 2` a leading
delay followed by `n − 1` pulse-delay pairs, the `i`-th delay weighted
`offsets[i+1] − offsets[i]`), wrap with the optional pre/post
rotations, and feed the result to the base-sequence constructor. -/
noncomputable def uhrigSequence (component : DDComponent)
    (preRotation postRotation : Option DDComponent)
    (repetitionNumber : ℕ) : DDSequence ℝ :=
  let delay := DDComponent.delayC 1
  let core : List DDComponent × List (Option ℝ) :=
    if repetitionNumber = 1 then
      ([delay, component, delay], [some 1, none, some 1])
    else
      let offsets : List ℝ :=
        (List.range (repetitionNumber + 1)).map (uddOffset repetitionNumber)
      let offsetsScales : List ℝ :=
        (List.range repetitionNumber).map
          (fun i => offsets.getD (i + 1) 0 - offsets.getD i 0)
      (List.range' 1 (repetitionNumber - 1)).foldl
        (fun p i =>
          (p.1 ++ [component, delay], p.2 ++ [none, some (offsetsScales.getD i 0)]))
        ([delay], [some (offsetsScales.getD 0 0)])
  let withPre : List DDComponent × List (Option ℝ) :=
    match preRotation with
    | some pre => (pre :: core.1, none :: core.2)
    | none => core
  let withPost : List DDComponent × List (Option ℝ) :=
    match postRotation with
    | some post => (withPre.1 ++ [post], withPre.2 ++ [none])
    | none => withPre
  mkSequence withPost.1 (some withPost.2)

theorem upd_same {α : Type} (f : ℕ → α) (i : ℕ) (v : α) : upd f i v i = v := by
  simp [upd]

theorem upd_ne {α : Type} (f : ℕ → α) (i j : ℕ) (v : α) (h : j ≠ i) :
    upd f i v j = f j := by
  simp [upd, h]

theorem foldl_insertBack_eq {α : Type} (f : α → OpNode) (l : List α)
    (out : List OpNode) :
    l.foldl (fun acc x => insertBack acc (f x)) out = out ++ l.map f := by
  induction l generalizing out with
  | nil => simp
  | cons x l ih =>
    rw [List.foldl_cons, ih]
    simp [insertBack]

theorem foldl_insertFront_eq {α : Type} (f : α → OpNode) (l : List α)
    (out : List OpNode) :
    l.foldl (fun acc x => insertFront acc (f x)) out = (l.map f).reverse ++ out := by
  induction l generalizing out with
  | nil => simp
  | cons x l ih =>
    rw [List.foldl_cons, ih]
    simp [insertFront]

theorem filter_delay_map_range (g : ℕ → ℤ) (nq q : ℕ) (hq : q < nq) :
    ((List.range nq).map (fun i => delayNode (g i) i)).filter
      (fun nd => decide (q ∈ nd.qargs)) = [delayNode (g q) q] := by
  induction nq with
  | zero => omega
  | succ n ih =>
    rw [List.range_succ, List.map_append, List.filter_append]
    rcases Nat.lt_succ_iff_lt_or_eq.mp hq with h | h
    · rw [ih h]
      have hqn : ¬ (q = n) := by omega
      simp [delayNode, hqn]
    · subst h
      have hnil : ((List.range q).map (fun i => delayNode (g i) i)).filter
          (fun nd => decide (q ∈ nd.qargs)) = [] := by
        rw [List.filter_eq_nil_iff]
        intro a ha
        simp only [List.mem_map, List.mem_range] at ha
        obtain ⟨i, hi, rfl⟩ := ha
        simp [delayNode]
        omega
      rw [hnil]
      simp [delayNode]

theorem pyMax_le (l : List ℤ) (m : ℤ) (hm : pyMax l = some m) :
    ∀ x ∈ l, x ≤ m := by
  induction l generalizing m with
  | nil => simp [pyMax] at hm
  | cons x xs ih =>
    intro y hy
    rcases List.mem_cons.mp hy with rfl | hy
    · cases hxs : pyMax xs with
      | none => simp [pyMax, hxs] at hm; omega
      | some mx => simp [pyMax, hxs] at hm; subst hm; exact le_max_left _ _
    · cases hxs : pyMax xs with
      | none => cases xs with
        | nil => simp at hy
        | cons z zs => simp [pyMax] at hxs; cases h2 : pyMax zs <;> simp [h2] at hxs
      | some mx =>
        simp [pyMax, hxs] at hm
        subst hm
        exact le_trans (ih mx hxs y hy) (le_max_right _ _)

/-- C1: the claim states that `to_dt_assert_exact` fails exactly when
the distance to the **nearest** integer exceeds the tolerance, so that
a tick value just below an integer boundary (here 2.9999, within 1e-4
of 3) must succeed.  The code instead measures the distance to the
truncation `int(dt_float)` and raises on this input, contradicting its
own `Raises` docstring ("if the given time is not a multiple of dt
within the given absolute error"): 2.9999 ticks is a multiple of dt
within 1e-4 < 1e-3, yet the call fails. -/
theorem toDtAssertExact_truncation_bug :
    toDtAssertExact (29999 / 10000) .dtu 1 (1 / 1000) =
      .error "RuntimeError: given time is not a multiple of dt" ∧
    |(29999 / 10000 : ℚ) - (pyRound (29999 / 10000 : ℚ) : ℚ)| ≤ 1 / 1000 := by
  constructor
  · with_unfolding_all rfl
  · have h3 : pyRound (29999 / 10000 : ℚ) = 3 := by with_unfolding_all rfl
    rw [h3]
    rw [abs_of_nonpos (by norm_num)]
    norm_num

/-- C3: `can_be_used_on_duration(target, q)` returns `True` iff the
target strictly exceeds the sum `F` of the durations of the
non-scalable components on `q`; in particular it rejects `F` itself and
accepts `F + 1`. -/
theorem can_be_used_iff_exceeds_fixed {α : Type} (seq : DDSequence α)
    (durationDt : ℤ) (qargs : List ℕ) :
    (seq.can_be_used_on_duration durationDt qargs = true ↔
      ((seq.components.filter (fun c => !c.is_scalable)).map
        (fun c => c.duration qargs)).sum < durationDt) ∧
    seq.can_be_used_on_duration (fixedDurationDt seq qargs) qargs = false ∧
    seq.can_be_used_on_duration (fixedDurationDt seq qargs + 1) qargs = true := by
  refine ⟨?_, ?_, ?_⟩
  · simp [DDSequence.can_be_used_on_duration, fixedDurationDt]
  · simp [DDSequence.can_be_used_on_duration]
  · simp [DDSequence.can_be_used_on_duration]

/-- C2 counterexample: at a barrier where every qubit is already at the
maximum current time (one qubit at time 0, so `m = 0` and `t(0) = m`),
the pass still inserts a (zero-duration) delay node on that qubit,
whereas the claim states that no delay node is inserted for a qubit
whose current time already equals `m`. -/
theorem btdBarrier_zero_lag_counterexample :
    btdBarrier insertBack 1 ⟨fun _ => 0, []⟩ =
      .ok ⟨fun _ => 0, [delayNode 0 0]⟩ ∧
    pyMax (timesList 1 (fun _ => 0)) = some 0 := by
  constructor
  · with_unfolding_all rfl
  · with_unfolding_all rfl

/-- C2 (amended): when a barrier node is visited with per-qubit
current-time vector `t` and `m` the maximum current time, one delay
node of duration `m − t(q)` is inserted on **every** qubit `q` — also,
as a zero-duration delay, on qubits with `t(q) = m` — appended in qubit
order for ASAP insertion and prepended (hence in reversed order) for
ALAP insertion, and afterwards every qubit's current time equals `m`;
the inserted list restricted to any qubit `q < nq` is exactly the one
delay of duration `m − t(q)`. -/
theorem btdBarrier_pads_every_qubit (nq : ℕ) (t : ℕ → ℤ) (out : List OpNode)
    (m : ℤ) (hm : pyMax (timesList nq t) = some m) :
    btdBarrier insertBack nq ⟨t, out⟩ =
      .ok ⟨fun _ => m, out ++ (List.range nq).map (fun i => delayNode (m - t i) i)⟩ ∧
    btdBarrier insertFront nq ⟨t, out⟩ =
      .ok ⟨fun _ => m,
        ((List.range nq).map (fun i => delayNode (m - t i) i)).reverse ++ out⟩ ∧
    ∀ q, q < nq →
      ((List.range nq).map (fun i => delayNode (m - t i) i)).filter
        (fun nd => decide (q ∈ nd.qargs)) = [delayNode (m - t q) q] := by
  refine ⟨?_, ?_, ?_⟩
  · simp only [btdBarrier, hm, btdDelayFill]
    rw [foldl_insertBack_eq]
  · simp only [btdBarrier, hm, btdDelayFill]
    rw [foldl_insertFront_eq]
  · intro q hq
    exact filter_delay_map_range (fun i => m - t i) nq q hq

/-- C2 witness: a two-qubit barrier with qubit 0 at time 3 and qubit 1
at time 0; a 0-tick delay is inserted on qubit 0 and a 3-tick delay on
qubit 1, and the delay list restricted to qubit 1 is that one 3-tick
delay. -/
theorem btdBarrier_pads_every_qubit_witness :
    (btdBarrier insertBack 2 ⟨fun i => if i = 0 then 3 else 0, []⟩ =
      .ok ⟨fun _ => 3,
        [] ++ (List.range 2).map
          (fun i => delayNode (3 - (if i = 0 then 3 else 0)) i)⟩) ∧
    ((List.range 2).map
        (fun i => delayNode (3 - (if i = 0 then (3 : ℤ) else 0)) i)).filter
      (fun nd => decide ((1 : ℕ) ∈ nd.qargs)) =
      [delayNode (3 - (if (1 : ℕ) = 0 then 3 else 0)) 1] :=
  ⟨(btdBarrier_pads_every_qubit 2 (fun i => if i = 0 then 3 else 0) [] 3
      (by decide)).1,
   (btdBarrier_pads_every_qubit 2 (fun i => if i = 0 then 3 else 0) [] 3
      (by decide)).2.2 1 (by decide)⟩

/-- Initial flagging state: every qubit in the ground state, nothing
recorded. -/
def flagInit : FlagState := ⟨fun _ => true, []⟩

/-- The per-qubit ground flags seen by the `i`-th node of the
traversal (the state after folding the first `i` nodes). -/
def groundBefore (nodes : List OpNode) (i : ℕ) : ℕ → Bool :=
  ((nodes.take i).foldl flagStep flagInit).ground

theorem foldl_upd_const {α : Type} (b : α) (qargs : List ℕ) (g : ℕ → α)
    (q : ℕ) :
    (qargs.foldl (fun g' q' => upd g' q' b) g) q =
      if q ∈ qargs then b else g q := by
  induction qargs generalizing g with
  | nil => simp
  | cons x xs ih =>
    rw [List.foldl_cons, ih]
    by_cases hx : q ∈ xs
    · simp [hx]
    · by_cases hq : q = x
      · subst hq
        simp [hx, upd_same]
      · simp [hx, hq, upd]

theorem flagStep_recorded (st : FlagState) (n : OpNode) :
    (flagStep st n).recorded = st.recorded ++
      [if isFundamentalKind n then n.qargs.all (fun q => st.ground q)
       else false] := by
  unfold flagStep
  by_cases hf : isFundamentalKind n
  · by_cases hr : n.name == "reset" <;> simp [hf, hr]
  · have hr : ¬ ((n.name == "reset") = true) := by
      intro h
      exact hf (by simp [isFundamentalKind, h])
    simp [hf, hr]

theorem flagStep_ground (st : FlagState) (n : OpNode) (q : ℕ) :
    (flagStep st n).ground q =
      if n.name = "reset" ∧ q ∈ n.qargs then true
      else if isFundamentalKind n = false ∧ q ∈ n.qargs then false
      else st.ground q := by
  unfold flagStep
  by_cases hr : n.name = "reset"
  · have hf : isFundamentalKind n = true := by simp [isFundamentalKind, hr]
    simp only [hf, hr, beq_self_eq_true, if_true]
    rw [foldl_upd_const]
    by_cases hq : q ∈ n.qargs <;> simp [hq]
  · have hrb : (n.name == "reset") = false := by simpa using hr
    by_cases hf : isFundamentalKind n
    · simp [hf, hrb, hr]
    · simp only [Bool.not_eq_true] at hf
      simp only [hf, hrb, Bool.false_eq_true, if_false]
      rw [foldl_upd_const]
      by_cases hq : q ∈ n.qargs <;> simp [hq, hr, hf]

theorem flag_foldl_recorded (nodes : List OpNode) (st : FlagState) :
    (nodes.foldl flagStep st).recorded =
      st.recorded ++ (List.range nodes.length).map (fun i =>
        if isFundamentalKind (nodes.getD i (opNode "" [])) then
          (nodes.getD i (opNode "" [])).qargs.all
            (fun q => ((nodes.take i).foldl flagStep st).ground q)
        else false) := by
  induction nodes generalizing st with
  | nil => simp
  | cons n rest ih =>
    rw [List.foldl_cons, ih (flagStep st n), flagStep_recorded]
    rw [List.length_cons, List.range_succ_eq_map, List.map_cons, List.map_map]
    have hfun : ((fun i =>
        if isFundamentalKind ((n :: rest).getD i (opNode "" [])) then
          ((n :: rest).getD i (opNode "" [])).qargs.all
            (fun q => (((n :: rest).take i).foldl flagStep st).ground q)
        else false) ∘ Nat.succ) =
        (fun i =>
          if isFundamentalKind (rest.getD i (opNode "" [])) then
            (rest.getD i (opNode "" [])).qargs.all
              (fun q => ((rest.take i).foldl flagStep (flagStep st n)).ground q)
          else false) := by
      funext i
      simp only [Function.comp_apply, List.getD_cons_succ, List.take_succ_cons,
        List.foldl_cons]
    rw [hfun]
    simp [List.getD_cons_zero]

/-- C7: the ground-state-flagging pass records, for each node in
traversal order, the conjunction of the pre-node ground flags of its
qubits when the node's kind is identity/delay/barrier/reset, and
`false` for every other node; and the per-qubit flag evolves as: a
reset sets its qubits' flags to `true` (after its own value is
recorded), any non-identity-kind node clears its qubits' flags, and
every other node leaves the flags unchanged — so starting from
all-`true` flags, a fresh qubit's first delay is flagged true, delays
after a non-identity operation are flagged false, and delays after a
reset are flagged true again. -/
theorem flag_fundamental_state_characterization (dag : Circuit) :
    FlagFundamentalStateOperations.run dag =
      (List.range dag.nodes.length).map (fun i =>
        if isFundamentalKind (dag.nodes.getD i (opNode "" [])) then
          (dag.nodes.getD i (opNode "" [])).qargs.all
            (fun q => groundBefore dag.nodes i q)
        else false) ∧
    ∀ st n q, (flagStep st n).ground q =
      if n.name = "reset" ∧ q ∈ n.qargs then true
      else if isFundamentalKind n = false ∧ q ∈ n.qargs then false
      else st.ground q := by
  constructor
  · have h := flag_foldl_recorded dag.nodes flagInit
    simpa [FlagFundamentalStateOperations.run, flagInit, groundBefore] using h
  · exact flagStep_ground

theorem DDComponent.apply_eq (c : DDComponent) (qc : Circuit)
    (qargs localQ : List ℕ) :
    c.apply qc qargs localQ =
      ⟨qc.nqubits, qc.nodes ++ c.appliedNodes qargs localQ,
       c.applyCalsEffect qargs qc.cals⟩ := by
  cases c <;> rfl

/-- A sequence is well-scaled when every scalable component has a
stored scale; the constructor always produces such sequences. -/
def ScalesOk {α : Type} (seq : DDSequence α) : Prop :=
  ∀ p ∈ seq.components.zip seq.relativeScales,
    p.1.is_scalable = true → p.2.isSome

theorem addComponent_foldl {α : Type} [One α]
    (pairs : List (DDComponent × Option α)) (s0 : DDSequence α) :
    pairs.foldl (fun s p => addComponent s p.1 p.2) s0 =
      ⟨s0.components ++ pairs.map (fun p => p.1),
       s0.relativeScales ++ pairs.map (fun p =>
         if p.1.is_scalable then some (p.2.getD 1) else none)⟩ := by
  induction pairs generalizing s0 with
  | nil => simp
  | cons p pairs ih =>
    rw [List.foldl_cons, ih]
    simp [addComponent]

theorem mkSequence_eq {α : Type} [One α] (comps : List DDComponent)
    (scalesOpt : Option (List (Option α))) :
    mkSequence comps scalesOpt =
      ⟨(comps.zip (mkScalesList comps scalesOpt)).map (fun p => p.1),
       (comps.zip (mkScalesList comps scalesOpt)).map (fun p =>
         if p.1.is_scalable then some (p.2.getD 1) else none)⟩ := by
  unfold mkSequence
  rw [addComponent_foldl]
  simp

theorem mkSequence_scalesOk {α : Type} [One α] (comps : List DDComponent)
    (scalesOpt : Option (List (Option α))) :
    ScalesOk (mkSequence comps scalesOpt) := by
  rw [mkSequence_eq]
  intro p hp hsc
  rw [List.zip_map'] at hp
  simp only [List.mem_map] at hp
  obtain ⟨x, _, rfl⟩ := hp
  simp only at hsc ⊢
  simp [hsc]

theorem foldl_append_bind {α β : Type} (f : α → List β) (l : List α)
    (init : List β) :
    l.foldl (fun ns x => ns ++ f x) init = init ++ l.flatMap f := by
  induction l generalizing init with
  | nil => simp
  | cons x l ih =>
    rw [List.foldl_cons, ih]
    simp

/-- The component the duration-fitting algorithm realizes for a stored
(component, scale) pair: a scalable component becomes a delay at
`round((target − F) · w / W)` ticks, a non-scalable one is kept
unchanged. -/
def realizedComponent {α : Type} [LinearOrderedField α] [FloorRing α]
    (seq : DDSequence α) (totalDurationDt : ℤ) (qargs : List ℕ)
    (p : DDComponent × Option α) : DDComponent :=
  if p.1.is_scalable then
    .delayC (pyRound
      (((totalDurationDt : α) - (fixedDurationDt seq qargs : α)) *
        (p.2.getD 1) / (seq.relativeScales.filterMap id).sum))
  else p.1

theorem circuit_foldlM_char {α : Type} [LinearOrderedField α] [FloorRing α]
    (qargs : List ℕ) (dts ts : α)
    (pairs : List (DDComponent × Option α)) (qc : Circuit)
    (hsc : ∀ p ∈ pairs, p.1.is_scalable = true → p.2.isSome) :
    pairs.foldlM
      (fun (qc : Circuit) (p : DDComponent × Option α) =>
        if p.1.is_scalable then
          match p.2 with
          | none => (.error "TypeError: unsupported operand" : Except String Circuit)
          | some w => do
            let componentDurationDt : ℤ := pyRound (dts * w / ts)
            let c2 ← p.1.scale_to componentDurationDt
            pure (c2.apply qc qargs [0])
        else
          pure (p.1.apply qc qargs [0]))
      qc =
    .ok ⟨qc.nqubits,
      qc.nodes ++ pairs.flatMap (fun (p : DDComponent × Option α) =>
        (if p.1.is_scalable then
          DDComponent.delayC (pyRound (dts * (p.2.getD 1) / ts))
         else p.1).appliedNodes qargs [0]),
      pairs.foldl (fun cs (p : DDComponent × Option α) =>
        (if p.1.is_scalable then
          DDComponent.delayC (pyRound (dts * (p.2.getD 1) / ts))
         else p.1).applyCalsEffect qargs cs) qc.cals⟩ := by
  induction pairs generalizing qc with
  | nil =>
    rcases qc with ⟨nq, ns, cs⟩
    simp [pure, Except.pure]
  | cons p pairs ih =>
    rcases p with ⟨c, sc⟩
    have htail : ∀ r ∈ pairs, r.1.is_scalable = true → r.2.isSome :=
      fun r hr => hsc r (List.mem_cons_of_mem _ hr)
    cases c with
    | delayC pt =>
      have hsm : sc.isSome :=
        hsc (.delayC pt, sc) (List.mem_cons_self _ _) rfl
      obtain ⟨w, rfl⟩ := Option.isSome_iff_exists.mp hsm
      exact (ih ((DDComponent.delayC (pyRound (dts * w / ts))).apply qc qargs [0])
          htail).trans
        (by rw [DDComponent.apply_eq]
            simp [DDComponent.appliedNodes, DDComponent.applyCalsEffect,
              DDComponent.is_scalable, List.append_assoc])
    | gateC g durs body =>
      exact (ih ((DDComponent.gateC g durs body).apply qc qargs [0])
          htail).trans
        (by rw [DDComponent.apply_eq]
            simp [DDComponent.is_scalable, List.append_assoc])
    | pulseC pn durs cal =>
      exact (ih ((DDComponent.pulseC pn durs cal).apply qc qargs [0])
          htail).trans
        (by rw [DDComponent.apply_eq]
            simp [DDComponent.is_scalable, List.append_assoc])

/-- C4: for every sequence built by the constructor, `circuit(target,
qargs)` succeeds and applies the components in their stored order
without reordering, realizing each scalable component of weight `w` as
a delay of `round((target − F) · w / W)` ticks (`F` the fixed-duration
sum, `W` the total scalable weight) and applying each non-scalable
component unchanged; in particular a sequence with exactly one scalable
component of weight 1 after a non-scalable component, built with target
`F + 5`, realizes that component at duration exactly 5. -/
theorem circuit_realizes_scaled_components :
    (∀ (comps : List DDComponent) (scalesOpt : Option (List (Option ℚ)))
        (total : ℤ) (qargs : List ℕ),
      (mkSequence comps scalesOpt).circuit total qargs = .ok
        ⟨1,
         ((mkSequence comps scalesOpt).components.zip
            (mkSequence comps scalesOpt).relativeScales).flatMap
           (fun p => (realizedComponent (mkSequence comps scalesOpt) total
              qargs p).appliedNodes qargs [0]),
         ((mkSequence comps scalesOpt).components.zip
            (mkSequence comps scalesOpt).relativeScales).foldl
           (fun cs p => (realizedComponent (mkSequence comps scalesOpt) total
              qargs p).applyCalsEffect qargs cs) []⟩) ∧
    (∀ (c : DDComponent) (qargs : List ℕ), c.is_scalable = false →
      (mkSequence [c, .delayC 1] none : DDSequence ℚ).circuit
          (c.duration qargs + 5) qargs = .ok
        ⟨1, c.appliedNodes qargs [0] ++ [⟨"delay", [0], (5 : ℚ), .dtu⟩],
         c.applyCalsEffect qargs []⟩) := by
  have h1 : ∀ (comps : List DDComponent) (scalesOpt : Option (List (Option ℚ)))
      (total : ℤ) (qargs : List ℕ),
      (mkSequence comps scalesOpt).circuit total qargs = .ok
        ⟨1,
         ((mkSequence comps scalesOpt).components.zip
            (mkSequence comps scalesOpt).relativeScales).flatMap
           (fun p => (realizedComponent (mkSequence comps scalesOpt) total
              qargs p).appliedNodes qargs [0]),
         ((mkSequence comps scalesOpt).components.zip
            (mkSequence comps scalesOpt).relativeScales).foldl
           (fun cs p => (realizedComponent (mkSequence comps scalesOpt) total
              qargs p).applyCalsEffect qargs cs) []⟩ := by
    intro comps scalesOpt total qargs
    refine (circuit_foldlM_char qargs
        ((total : ℚ) - (fixedDurationDt (mkSequence comps scalesOpt) qargs : ℚ))
        (((mkSequence comps scalesOpt).relativeScales.filterMap id).sum)
        ((mkSequence comps scalesOpt).components.zip
          (mkSequence comps scalesOpt).relativeScales)
        ⟨1, [], []⟩ (mkSequence_scalesOk comps scalesOpt)).trans ?_
    simp [realizedComponent]
  refine ⟨h1, ?_⟩
  intro c qargs hc
  have hseq : (mkSequence [c, .delayC 1] none : DDSequence ℚ) =
      ⟨[c, .delayC 1], [none, some 1]⟩ := by
    rw [mkSequence_eq]
    simp [mkScalesList, hc, show (DDComponent.delayC 1).is_scalable = true from rfl]
  have h := h1 [c, .delayC 1] none (c.duration qargs + 5) qargs
  rw [hseq] at h
  rw [hseq, h]
  have h5' : pyRound (5 : ℚ) = 5 := by
    unfold pyRound
    rw [show ((5 : ℚ)) = ((5 : ℤ) : ℚ) by norm_num, Int.floor_intCast]
    norm_num
  simp [realizedComponent, fixedDurationDt, List.filter_cons, hc,
    show (DDComponent.delayC 1).is_scalable = true from rfl, h5',
    DDComponent.appliedNodes, DDComponent.applyCalsEffect]

/-- C4 witness: a fixed 3-tick gate followed by one scalable delay of
weight 1, built at target `F + 5 = 3 + 5`, realizes the delay at
duration exactly 5 and keeps the gate unchanged. -/
theorem circuit_realizes_scaled_components_witness :
    (DDComponent.gateC "x" (fun _ => 3) [opNode "x" [0]]).is_scalable = false ∧
    (mkSequence [DDComponent.gateC "x" (fun _ => 3) [opNode "x" [0]],
        .delayC 1] none : DDSequence ℚ).circuit
        ((DDComponent.gateC "x" (fun _ => 3) [opNode "x" [0]]).duration [0] + 5)
        [0] = .ok
      ⟨1, (DDComponent.gateC "x" (fun _ => 3) [opNode "x" [0]]).appliedNodes
            [0] [0] ++ [⟨"delay", [0], (5 : ℚ), .dtu⟩],
       (DDComponent.gateC "x" (fun _ => 3) [opNode "x" [0]]).applyCalsEffect
         [0] []⟩ :=
  ⟨rfl, circuit_realizes_scaled_components.2
    (DDComponent.gateC "x" (fun _ => 3) [opNode "x" [0]]) [0] rfl⟩

/-- The fragment a fitting delay is replaced by: the circuit built by
the sequence at the delay's (truncated) tick duration on its qubits.
(The error branch is unreachable: constructor-built sequences always
build successfully.) -/
def ddFragment (seq : DDSequence ℚ) (d : ℤ) (q : List ℕ) : Circuit :=
  match seq.circuit d q with
  | .ok qc => qc
  | .error _ => ⟨1, [], []⟩

/-- The node-list rewrite the delay-to-DD pass performs on one node: a
delay whose duration fits the sequence becomes the built fragment
remapped onto the delay's qubits; everything else is kept unchanged. -/
def dtdRewriteNodes (seq : DDSequence ℚ) (dt : ℚ) (n : OpNode) :
    List OpNode :=
  if n.name == "delay" then
    if seq.can_be_used_on_duration (toDtRounded n.duration n.tunit dt) n.qargs
    then (ddFragment seq (toDtRounded n.duration n.tunit dt) n.qargs).nodes.map
      (remapQargs n.qargs)
    else [n]
  else [n]

/-- The calibration-table rewrite the delay-to-DD pass performs on one
node: a replaced delay copies the fragment's calibrations across. -/
def dtdRewriteCals (seq : DDSequence ℚ) (dt : ℚ) (cals : List (String × ℕ))
    (n : OpNode) : List (String × ℕ) :=
  if n.name == "delay" then
    if seq.can_be_used_on_duration (toDtRounded n.duration n.tunit dt) n.qargs
    then (ddFragment seq (toDtRounded n.duration n.tunit dt) n.qargs).cals.foldl
      (fun cs p => calUpdate cs p.1 p.2) cals
    else cals
  else cals

theorem circuit_eq_ok_ddFragment (seq : DDSequence ℚ) (hsc : ScalesOk seq)
    (d : ℤ) (q : List ℕ) :
    seq.circuit d q = .ok (ddFragment seq d q) := by
  obtain ⟨x, hx⟩ : ∃ x, seq.circuit d q = .ok x :=
    ⟨_, circuit_foldlM_char q ((d : ℚ) - (fixedDurationDt seq q : ℚ))
      ((seq.relativeScales.filterMap id).sum)
      (seq.components.zip seq.relativeScales) ⟨1, [], []⟩ hsc⟩
  unfold ddFragment
  rw [hx]

theorem dtdStep_eq (seq : DDSequence ℚ) (hsc : ScalesOk seq) (dt : ℚ)
    (qc : Circuit) (n : OpNode) :
    dtdStep seq dt qc n = .ok
      ⟨qc.nqubits, qc.nodes ++ dtdRewriteNodes seq dt n,
       dtdRewriteCals seq dt qc.cals n⟩ := by
  unfold dtdStep dtdRewriteNodes dtdRewriteCals
  by_cases hd : (n.name == "delay") = true
  · rw [if_pos hd, if_pos hd, if_pos hd]
    by_cases hu : seq.can_be_used_on_duration
        (toDtRounded n.duration n.tunit dt) n.qargs = true
    · rw [if_pos hu, if_pos hu, if_pos hu,
        circuit_eq_ok_ddFragment seq hsc]
      rfl
    · rw [if_neg hu, if_neg hu, if_neg hu]
      rfl
  · rw [if_neg hd, if_neg hd, if_neg hd]
    rfl

theorem dtd_foldlM_eq (seq : DDSequence ℚ) (hsc : ScalesOk seq) (dt : ℚ)
    (nodes : List OpNode) (qc : Circuit) :
    nodes.foldlM (dtdStep seq dt) qc = .ok
      ⟨qc.nqubits, qc.nodes ++ nodes.flatMap (dtdRewriteNodes seq dt),
       nodes.foldl (dtdRewriteCals seq dt) qc.cals⟩ := by
  induction nodes generalizing qc with
  | nil =>
    rcases qc with ⟨nq, ns, cs⟩
    simp [pure, Except.pure]
  | cons n nodes ih =>
    rw [List.foldlM_cons, dtdStep_eq seq hsc]
    exact (ih ⟨qc.nqubits, qc.nodes ++ dtdRewriteNodes seq dt n,
        dtdRewriteCals seq dt qc.cals n⟩).trans
      (by simp [List.append_assoc])

/-- C8: for every constructor-built sequence, the delay-to-DD pass
rewrites the graph node by node in traversal order: a delay node whose
(truncated) tick duration passes `can_be_used_on_duration` is replaced
by the fragment built at that duration on the delay's qubit set,
remapped onto those qubits and with the fragment's pulse-calibration
table merged into the output's; any other delay node and every
non-delay node passes through unchanged; and the fragment build always
succeeds. -/
theorem delay_to_dd_rewrite_characterization
    (comps : List DDComponent) (scalesOpt : Option (List (Option ℚ)))
    (dt : ℚ) (dag : Circuit) :
    DelayToDDPass.run (mkSequence comps scalesOpt) dt dag = .ok
      ⟨dag.nqubits,
       dag.nodes.flatMap (dtdRewriteNodes (mkSequence comps scalesOpt) dt),
       dag.nodes.foldl (dtdRewriteCals (mkSequence comps scalesOpt) dt)
         dag.cals⟩ ∧
    ∀ (d : ℤ) (q : List ℕ),
      (mkSequence comps scalesOpt : DDSequence ℚ).circuit d q =
        .ok (ddFragment (mkSequence comps scalesOpt) d q) := by
  refine ⟨?_, fun d q =>
    circuit_eq_ok_ddFragment _ (mkSequence_scalesOk comps scalesOpt) d q⟩
  exact (dtd_foldlM_eq (mkSequence comps scalesOpt)
    (mkSequence_scalesOk comps scalesOpt) dt dag.nodes
    ⟨dag.nqubits, [], dag.cals⟩).trans (by simp)

theorem getD_map_range {α : Type} (f : ℕ → α) (d : α) (m i : ℕ) (h : i < m) :
    ((List.range m).map f).getD i d = f i := by
  rw [List.getD_eq_getElem?_getD, List.getElem?_map, List.getElem?_range h]
  rfl

theorem foldl_extend_pair (comp del : DDComponent) (g : ℕ → Option ℝ)
    (l : List ℕ) (s0 : List DDComponent) (c0 : List (Option ℝ)) :
    l.foldl (fun p i => (p.1 ++ [comp, del], p.2 ++ [none, g i])) (s0, c0) =
      (s0 ++ l.flatMap (fun _ => [comp, del]),
       c0 ++ l.flatMap (fun i => [none, g i])) := by
  induction l generalizing s0 c0 with
  | nil => simp
  | cons x l ih =>
    rw [List.foldl_cons, ih]
    simp

theorem zip_flatMap_pairs (comp del : DDComponent) (g : ℕ → Option ℝ)
    (xs : List ℕ) :
    (xs.flatMap (fun _ => [comp, del])).zip
        (xs.flatMap (fun i => [(none : Option ℝ), g i])) =
      xs.flatMap (fun i => [(comp, (none : Option ℝ)), (del, g i)]) := by
  induction xs with
  | nil => simp
  | cons x xs ih =>
    simp only [List.flatMap_cons, List.cons_append, List.nil_append,
      List.zip_cons_cons, ih]

/-- C10: for every repetition count `n ≥ 2` and non-scalable pi-pulse
component, without pre/post rotations, the Uhrig factory builds the
component list `delay, (pulse, delay) × (n − 1)`: exactly `n` scalable
delays whose stored weights are `offsets[i+1] − offsets[i]` for
`i = 0 .. n−1` with `offsets[i] = sin²(π·i/(2n))`, interleaved with
exactly `n − 1` copies of the pulse component (the pulse appears
`n − 1` times, not `n` times). -/
theorem uhrig_sequence_structure (component : DDComponent) (n : ℕ)
    (hn : 2 ≤ n) (hc : component.is_scalable = false) :
    (uhrigSequence component none none n).components =
      DDComponent.delayC 1 ::
        (List.range (n - 1)).flatMap
          (fun _ => [component, DDComponent.delayC 1]) ∧
    (uhrigSequence component none none n).relativeScales =
      some (uddOffset n 1 - uddOffset n 0) ::
        (List.range (n - 1)).flatMap (fun i =>
          [none, some (uddOffset n (i + 2) - uddOffset n (i + 1))]) ∧
    ((uhrigSequence component none none n).components.filter
      (fun c => c.is_scalable)).length = n ∧
    ((uhrigSequence component none none n).components.filter
      (fun c => !c.is_scalable)).length = n - 1 := by
  have hne : ¬ (n = 1) := by omega
  have hoff : ∀ i, i < n →
      ((List.range n).map (fun i =>
        ((List.range (n + 1)).map (uddOffset n)).getD (i + 1) 0 -
          ((List.range (n + 1)).map (uddOffset n)).getD i 0)).getD i 0 =
      uddOffset n (i + 1) - uddOffset n i := by
    intro i hi
    rw [getD_map_range _ _ _ _ hi,
      getD_map_range _ _ _ _ (by omega : i + 1 < n + 1),
      getD_map_range _ _ _ _ (by omega : i < n + 1)]
  have hcore : uhrigSequence component none none n =
      mkSequence
        (DDComponent.delayC 1 ::
          (List.range (n - 1)).flatMap
            (fun _ => [component, DDComponent.delayC 1]))
        (some (some (uddOffset n 1 - uddOffset n 0) ::
          (List.range (n - 1)).flatMap (fun i =>
            [none, some (uddOffset n (i + 2) - uddOffset n (i + 1))]))) := by
    unfold uhrigSequence
    simp only [hne, if_false]
    rw [List.range'_eq_map_range]
    rw [List.foldl_map]
    have hfold := foldl_extend_pair component (DDComponent.delayC 1)
      (fun j => some (((List.range n).map (fun i =>
        ((List.range (n + 1)).map (uddOffset n)).getD (i + 1) 0 -
          ((List.range (n + 1)).map (uddOffset n)).getD i 0)).getD (1 + j) 0))
      (List.range (n - 1)) [DDComponent.delayC 1]
      [some (((List.range n).map (fun i =>
        ((List.range (n + 1)).map (uddOffset n)).getD (i + 1) 0 -
          ((List.range (n + 1)).map (uddOffset n)).getD i 0)).getD 0 0)]
    rw [hfold]
    rw [hoff 0 (by omega)]
    have hscales : ((List.range (n - 1)).flatMap (fun j =>
        [(none : Option ℝ), some (((List.range n).map (fun i =>
          ((List.range (n + 1)).map (uddOffset n)).getD (i + 1) 0 -
            ((List.range (n + 1)).map (uddOffset n)).getD i 0)).getD (1 + j) 0)])) =
        ((List.range (n - 1)).flatMap (fun i =>
          [none, some (uddOffset n (i + 2) - uddOffset n (i + 1))])) := by
      rw [List.flatMap_def, List.flatMap_def]
      congr 1
      apply List.map_congr_left
      intro j hj
      simp only [List.mem_range] at hj
      rw [hoff (1 + j) (by omega)]
      have h1 : 1 + j + 1 = j + 2 := by omega
      have h2 : 1 + j = j + 1 := by omega
      rw [h1, h2]
    rw [hscales]
    rfl
  have hsl : mkScalesList
      (DDComponent.delayC 1 ::
        (List.range (n - 1)).flatMap
          (fun _ => [component, DDComponent.delayC 1]))
      (some (some (uddOffset n 1 - uddOffset n 0) ::
        (List.range (n - 1)).flatMap (fun i =>
          [none, some (uddOffset n (i + 2) - uddOffset n (i + 1))]))) =
      some (uddOffset n 1 - uddOffset n 0) ::
        (List.range (n - 1)).flatMap (fun i =>
          [none, some (uddOffset n (i + 2) - uddOffset n (i + 1))]) := by
    rfl
  have hpair : ((DDComponent.delayC 1 ::
      (List.range (n - 1)).flatMap
        (fun _ => [component, DDComponent.delayC 1])).zip
      (some (uddOffset n 1 - uddOffset n 0) ::
        (List.range (n - 1)).flatMap (fun i =>
          [none, some (uddOffset n (i + 2) - uddOffset n (i + 1))]))) =
      (DDComponent.delayC 1, some (uddOffset n 1 - uddOffset n 0)) ::
        (List.range (n - 1)).flatMap (fun i =>
          [(component, (none : Option ℝ)),
           (DDComponent.delayC 1,
            some (uddOffset n (i + 2) - uddOffset n (i + 1)))]) := by
    rw [List.zip_cons_cons,
      zip_flatMap_pairs component (DDComponent.delayC 1)
        (fun i => some (uddOffset n (i + 2) - uddOffset n (i + 1)))
        (List.range (n - 1))]
  have hcomps : (uhrigSequence component none none n).components =
      DDComponent.delayC 1 ::
        (List.range (n - 1)).flatMap
          (fun _ => [component, DDComponent.delayC 1]) := by
    rw [hcore, mkSequence_eq]
    dsimp only
    rw [hsl, hpair, List.map_cons, List.map_flatMap]
    simp
  have hscales2 : (uhrigSequence component none none n).relativeScales =
      some (uddOffset n 1 - uddOffset n 0) ::
        (List.range (n - 1)).flatMap (fun i =>
          [none, some (uddOffset n (i + 2) - uddOffset n (i + 1))]) := by
    rw [hcore, mkSequence_eq]
    dsimp only
    rw [hsl, hpair, List.map_cons, List.map_flatMap]
    simp [hc, show (DDComponent.delayC 1).is_scalable = true from rfl]
  have lf1 : ∀ xs : List ℕ,
      ((xs.flatMap (fun _ => [component, DDComponent.delayC 1])).filter
        (fun c => c.is_scalable)).length = xs.length := by
    intro xs
    induction xs with
    | nil => simp
    | cons x xs ih =>
      rw [List.flatMap_cons, List.filter_append]
      simp [hc, ih, show (DDComponent.delayC 1).is_scalable = true from rfl]
  have lf2 : ∀ xs : List ℕ,
      ((xs.flatMap (fun _ => [component, DDComponent.delayC 1])).filter
        (fun c => !c.is_scalable)).length = xs.length := by
    intro xs
    induction xs with
    | nil => simp
    | cons x xs ih =>
      rw [List.flatMap_cons, List.filter_append]
      simp [hc, ih, show (DDComponent.delayC 1).is_scalable = true from rfl]
  refine ⟨hcomps, hscales2, ?_, ?_⟩
  · rw [hcomps, List.filter_cons]
    simp only [show (DDComponent.delayC 1).is_scalable = true from rfl,
      if_true, List.length_cons, lf1, List.length_range]
    omega
  · rw [hcomps, List.filter_cons]
    simp [show (DDComponent.delayC 1).is_scalable = true from rfl, lf2]

/-- C10 witness: at repetition count 2 with a non-scalable gate
component, the built list is delay–pulse–delay: two scalable delays
weighted `offsets[1] − offsets[0]` and `offsets[2] − offsets[1]`, and
exactly one copy of the pulse. -/
theorem uhrig_sequence_structure_witness :
    (uhrigSequence (DDComponent.gateC "y" (fun _ => 1) [])
        none none 2).components =
      DDComponent.delayC 1 ::
        (List.range (2 - 1)).flatMap
          (fun _ => [DDComponent.gateC "y" (fun _ => 1) [],
            DDComponent.delayC 1]) ∧
    (uhrigSequence (DDComponent.gateC "y" (fun _ => 1) [])
        none none 2).relativeScales =
      some (uddOffset 2 1 - uddOffset 2 0) ::
        (List.range (2 - 1)).flatMap (fun i =>
          [none, some (uddOffset 2 (i + 2) - uddOffset 2 (i + 1))]) ∧
    ((uhrigSequence (DDComponent.gateC "y" (fun _ => 1) [])
        none none 2).components.filter
      (fun c => c.is_scalable)).length = 2 ∧
    ((uhrigSequence (DDComponent.gateC "y" (fun _ => 1) [])
        none none 2).components.filter
      (fun c => !c.is_scalable)).length = 2 - 1 :=
  uhrig_sequence_structure (DDComponent.gateC "y" (fun _ => 1) []) 2
    (by decide) rfl

/-- Reversing a graph's operation order (the reversed graph of the
ALAP/ASAP duality, per the spec's description). -/
def reverseOperationOrder (c : Circuit) : Circuit :=
  ⟨c.nqubits, c.nodes.reverse, c.cals⟩

/-- A traversal state whose output list is reversed. -/
def revSt (st : BTDState) : BTDState :=
  ⟨st.times, st.out.reverse⟩

@[simp] theorem revSt_times (st : BTDState) : (revSt st).times = st.times :=
  rfl

@[simp] theorem revSt_out (st : BTDState) : (revSt st).out = st.out.reverse :=
  rfl

theorem btdDelayFill_front_rev (m : ℤ) (t : ℕ → ℤ) (nq : ℕ)
    (out : List OpNode) :
    btdDelayFill insertFront m t nq out.reverse =
      (btdDelayFill insertBack m t nq out).reverse := by
  unfold btdDelayFill
  rw [foldl_insertFront_eq (fun i => delayNode (m - t i) i) (List.range nq)
      out.reverse,
    foldl_insertBack_eq (fun i => delayNode (m - t i) i) (List.range nq) out,
    List.reverse_append]

theorem btdBarrier_front_rev (nq : ℕ) (st : BTDState) :
    btdBarrier insertFront nq (revSt st) =
      (btdBarrier insertBack nq st).map revSt := by
  unfold btdBarrier
  cases hm : pyMax (timesList nq st.times) with
  | none => simp [hm, Except.map]
  | some m =>
    simp only [revSt_times, hm, Except.map]
    rw [show (revSt st).out = st.out.reverse from rfl,
      btdDelayFill_front_rev]
    rfl

theorem btdOpStep_front_rev (ms et : ℤ) (st : BTDState) (q : ℕ) :
    btdOpStep insertFront ms et (revSt st) q =
      revSt (btdOpStep insertBack ms et st q) := by
  unfold btdOpStep
  by_cases hq : st.times q < ms
  · simp only [revSt_times, revSt_out, hq, if_true, insertFront, insertBack]
    unfold revSt
    simp [List.reverse_append]
  · simp only [revSt_times, revSt_out, hq, if_false]
    unfold revSt
    simp

theorem btdOpFold_front_rev (ms et : ℤ) (l : List ℕ) :
    ∀ st : BTDState,
      btdOpFold insertFront ms et (revSt st) l =
        revSt (btdOpFold insertBack ms et st l) := by
  induction l with
  | nil => intro st; rfl
  | cons q l ih =>
    intro st
    unfold btdOpFold
    rw [List.foldl_cons, List.foldl_cons, btdOpStep_front_rev]
    exact ih (btdOpStep insertBack ms et st q)

theorem btdNamedOp_front_rev (props : BackendProps) (dt : ℚ) (node : OpNode)
    (st : BTDState) :
    btdNamedOp props dt insertFront node (revSt st) =
      (btdNamedOp props dt insertBack node st).map revSt := by
  unfold btdNamedOp
  simp only [bind, Except.bind, revSt_times, Except.map]
  cases he : toDtAssertExact (props.gateLength node.name node.qargs) .s dt
      (1 / 1000) with
  | error e => rfl
  | ok d =>
    dsimp only
    cases hm : pyMax (List.map st.times node.qargs) with
    | none => rfl
    | some ms =>
      dsimp only
      rw [btdOpFold_front_rev ms d node.qargs st]
      simp [insertFront, insertBack, revSt, List.reverse_append, pure,
        Except.pure]

theorem btdStep_front_rev (props : BackendProps) (dt : ℚ) (nq : ℕ)
    (st : BTDState) (node : OpNode) :
    btdStep props dt insertFront nq (revSt st) node =
      (btdStep props dt insertBack nq st node).map revSt := by
  unfold btdStep
  by_cases hb : (node.name == "barrier") = true
  · rw [if_pos hb, if_pos hb]
    exact btdBarrier_front_rev nq st
  · rw [if_neg hb, if_neg hb]
    by_cases hmeas : (node.name == "measure") = true
    · rw [if_pos hmeas, if_pos hmeas]
      simp [pure, Except.pure, Except.map, insertFront, insertBack, revSt,
        List.reverse_append]
    · rw [if_neg hmeas, if_neg hmeas]
      exact btdNamedOp_front_rev props dt node st

theorem btd_foldlM_front_rev (props : BackendProps) (dt : ℚ) (nq : ℕ)
    (ns : List OpNode) :
    ∀ st : BTDState,
      ns.foldlM (btdStep props dt insertFront nq) (revSt st) =
        (ns.foldlM (btdStep props dt insertBack nq) st).map revSt := by
  induction ns with
  | nil => intro st; rfl
  | cons n ns ih =>
    intro st
    rw [List.foldlM_cons, List.foldlM_cons, btdStep_front_rev]
    cases h : btdStep props dt insertBack nq st n with
    | error e => simp [Except.map, bind, Except.bind]
    | ok st' =>
      simp only [Except.map, bind, Except.bind]
      exact ih st'

theorem btdFlush_front_rev (nq : ℕ) (st : BTDState) :
    btdFlush insertFront nq (revSt st) =
      (btdFlush insertBack nq st).map List.reverse := by
  unfold btdFlush
  cases hm : pyMax (timesList nq st.times) with
  | none => simp [hm, Except.map]
  | some m =>
    simp only [revSt_times, hm, Except.map]
    rw [show (revSt st).out = st.out.reverse from rfl, btdDelayFill_front_rev]

/-- C5: the barriers-to-delays pass in ALAP mode equals reversing the
input graph's operation order, running the pass in ASAP mode, and
reversing the result back (both runs also fail identically). -/
theorem alap_equals_reversed_asap (props : BackendProps) (dt : ℚ)
    (c : Circuit) :
    BarriersToDelaysPass.run props dt "alap" c =
      (BarriersToDelaysPass.run props dt "asap"
        (reverseOperationOrder c)).map reverseOperationOrder := by
  unfold BarriersToDelaysPass.run reverseOperationOrder
  simp only [show (("alap" == "alap") = true) from rfl,
    show (("asap" == "alap") = false) from rfl, Bool.false_eq_true,
    eq_self_iff_true, if_true, if_false, bind, Except.bind]
  have hfold : c.nodes.reverse.foldlM
      (btdStep props dt insertFront c.nqubits)
      ⟨fun _ => 0, ([] : List OpNode)⟩ =
      (c.nodes.reverse.foldlM
        (btdStep props dt insertBack c.nqubits) ⟨fun _ => 0, []⟩).map revSt :=
    btd_foldlM_front_rev props dt c.nqubits c.nodes.reverse ⟨fun _ => 0, []⟩
  rw [hfold]
  cases hf : (c.nodes.reverse).foldlM
      (btdStep props dt insertBack c.nqubits) ⟨fun _ => 0, []⟩ with
  | error e => rfl
  | ok st' =>
    dsimp only [Except.map]
    rw [btdFlush_front_rev]
    cases hfl : btdFlush insertBack c.nqubits st' with
    | error e => rfl
    | ok out => rfl

/-- Ticks a node contributes as busy time on any qubit it touches: the
converted calibrated duration for a named operation, 0 for barriers,
measurements and delays. -/
def nodeBusyDt (props : BackendProps) (dt : ℚ) (n : OpNode) : ℚ :=
  if n.name = "barrier" ∨ n.name = "measure" ∨ n.name = "delay" then 0
  else (((toDtAssertExact (props.gateLength n.name n.qargs) .s dt
    (1 / 1000)).toOption.getD 0 : ℤ) : ℚ)

/-- Ticks a node contributes as idle time: a delay's converted
duration, 0 for anything else. -/
def nodeIdleDt (dt : ℚ) (n : OpNode) : ℚ :=
  if n.name = "delay" then toDtFloat n.duration n.tunit dt else 0

/-- Busy ticks of a node list on qubit `q`. -/
def listBusy (props : BackendProps) (dt : ℚ) (l : List OpNode) (q : ℕ) : ℚ :=
  ((l.filter (fun n => decide (q ∈ n.qargs))).map (nodeBusyDt props dt)).sum

/-- Idle ticks of a node list on qubit `q`. -/
def listIdle (dt : ℚ) (l : List OpNode) (q : ℕ) : ℚ :=
  ((l.filter (fun n => decide (q ∈ n.qargs))).map (nodeIdleDt dt)).sum

/-- Busy ticks of a circuit on qubit `q`. -/
def busyTicks (props : BackendProps) (dt : ℚ) (c : Circuit) (q : ℕ) : ℚ :=
  listBusy props dt c.nodes q

/-- Idle ticks of a circuit on qubit `q`. -/
def idleTicks (dt : ℚ) (c : Circuit) (q : ℕ) : ℚ :=
  listIdle dt c.nodes q

theorem listBusy_append (props : BackendProps) (dt : ℚ) (l1 l2 : List OpNode)
    (q : ℕ) :
    listBusy props dt (l1 ++ l2) q = listBusy props dt l1 q +
      listBusy props dt l2 q := by
  simp [listBusy, List.filter_append]

theorem listIdle_append (dt : ℚ) (l1 l2 : List OpNode) (q : ℕ) :
    listIdle dt (l1 ++ l2) q = listIdle dt l1 q + listIdle dt l2 q := by
  simp [listIdle, List.filter_append]

theorem listBusy_reverse (props : BackendProps) (dt : ℚ) (l : List OpNode)
    (q : ℕ) :
    listBusy props dt l.reverse q = listBusy props dt l q := by
  simp [listBusy, List.filter_reverse, List.sum_reverse]

theorem listIdle_reverse (dt : ℚ) (l : List OpNode) (q : ℕ) :
    listIdle dt l.reverse q = listIdle dt l q := by
  simp [listIdle, List.filter_reverse, List.sum_reverse]

theorem listBusy_single (props : BackendProps) (dt : ℚ) (n : OpNode) (q : ℕ) :
    listBusy props dt [n] q =
      if q ∈ n.qargs then nodeBusyDt props dt n else 0 := by
  by_cases hq : q ∈ n.qargs <;> simp [listBusy, List.filter, hq]

theorem listIdle_single (dt : ℚ) (n : OpNode) (q : ℕ) :
    listIdle dt [n] q = if q ∈ n.qargs then nodeIdleDt dt n else 0 := by
  by_cases hq : q ∈ n.qargs <;> simp [listIdle, List.filter, hq]

theorem listBusy_delayFill (props : BackendProps) (dt : ℚ) (g : ℕ → ℤ)
    (nq q : ℕ) :
    listBusy props dt ((List.range nq).map (fun i => delayNode (g i) i)) q
      = 0 := by
  unfold listBusy
  apply List.sum_eq_zero
  intro x hx
  simp only [List.mem_map, List.mem_filter, List.mem_map] at hx
  obtain ⟨n, ⟨⟨i, _, rfl⟩, _⟩, rfl⟩ := hx
  simp [nodeBusyDt, delayNode]

theorem listIdle_delayFill (dt : ℚ) (g : ℕ → ℤ) (nq q : ℕ) (hq : q < nq) :
    listIdle dt ((List.range nq).map (fun i => delayNode (g i) i)) q =
      ((g q : ℤ) : ℚ) := by
  unfold listIdle
  rw [filter_delay_map_range g nq q hq]
  simp [nodeIdleDt, delayNode, toDtFloat]

theorem btdOpFold_char (ms d : ℤ) (l : List ℕ) :
    ∀ st : BTDState, l.Nodup → (∀ x ∈ l, st.times x ≤ ms) →
      (∀ q, (btdOpFold insertBack ms d st l).times q =
        if q ∈ l then ms + d else st.times q) ∧
      (btdOpFold insertBack ms d st l).out = st.out ++
        l.filterMap (fun x =>
          if st.times x < ms then some (delayNode (ms - st.times x) x)
          else none) := by
  induction l with
  | nil =>
    intro st _ _
    exact ⟨fun q => by simp [btdOpFold], by simp [btdOpFold]⟩
  | cons x l ih =>
    intro st hnd hle
    have hx : x ∉ l := (List.nodup_cons.mp hnd).1
    have hnd' : l.Nodup := (List.nodup_cons.mp hnd).2
    have hstep : btdOpStep insertBack ms d st x =
        ⟨upd st.times x (ms + d),
         st.out ++ (if st.times x < ms
           then [delayNode (ms - st.times x) x] else [])⟩ := by
      unfold btdOpStep
      by_cases hlt : st.times x < ms <;> simp [hlt, insertBack]
    have hfold : btdOpFold insertBack ms d st (x :: l) =
        btdOpFold insertBack ms d (btdOpStep insertBack ms d st x) l := rfl
    obtain ⟨iht, iho⟩ := ih ⟨upd st.times x (ms + d),
        st.out ++ (if st.times x < ms
          then [delayNode (ms - st.times x) x] else [])⟩
      hnd' (by
        intro y hy
        have hyx : y ≠ x := fun h => hx (h ▸ hy)
        show upd st.times x (ms + d) y ≤ ms
        rw [upd_ne st.times x y (ms + d) hyx]
        exact hle y (List.mem_cons_of_mem _ hy))
    have hcong : l.filterMap (fun y =>
        if upd st.times x (ms + d) y < ms
        then some (delayNode (ms - upd st.times x (ms + d) y) y) else none) =
        l.filterMap (fun y =>
          if st.times y < ms then some (delayNode (ms - st.times y) y)
          else none) := by
      apply List.filterMap_congr
      intro y hy
      have hyx : y ≠ x := fun h => hx (h ▸ hy)
      rw [upd_ne st.times x y (ms + d) hyx]
    constructor
    · intro q
      rw [hfold, hstep, iht q]
      by_cases hql : q ∈ l
      · simp [hql]
      · by_cases hqx : q = x
        · subst hqx
          simp [hql, upd_same]
        · simp [hql, hqx, upd]
    · rw [hfold, hstep, iho, hcong]
      by_cases hlt : st.times x < ms
      · simp [List.filterMap_cons, hlt, List.append_assoc]
      · simp [List.filterMap_cons, hlt]

theorem listBusy_delays_zero (props : BackendProps) (dt : ℚ)
    (l : List OpNode) (h : ∀ n ∈ l, n.name = "delay") (q : ℕ) :
    listBusy props dt l q = 0 := by
  unfold listBusy
  apply List.sum_eq_zero
  intro x hx
  simp only [List.mem_map, List.mem_filter] at hx
  obtain ⟨n, ⟨hn, _⟩, rfl⟩ := hx
  simp [nodeBusyDt, h n hn]

theorem listIdle_opDelays (dt : ℚ) (tms : ℕ → ℤ) (ms : ℤ) (l : List ℕ)
    (hnd : l.Nodup) (q : ℕ) :
    listIdle dt (l.filterMap (fun x =>
      if tms x < ms then some (delayNode (ms - tms x) x) else none)) q =
      if q ∈ l ∧ tms q < ms then ((ms - tms q : ℤ) : ℚ) else 0 := by
  induction l with
  | nil => simp [listIdle]
  | cons x l ih =>
    have hx : x ∉ l := (List.nodup_cons.mp hnd).1
    have hnd' : l.Nodup := (List.nodup_cons.mp hnd).2
    rw [List.filterMap_cons]
    by_cases hlt : tms x < ms
    · simp only [hlt, if_true]
      have hsplit : (delayNode (ms - tms x) x) ::
          l.filterMap (fun y =>
            if tms y < ms then some (delayNode (ms - tms y) y) else none) =
          [delayNode (ms - tms x) x] ++
          l.filterMap (fun y =>
            if tms y < ms then some (delayNode (ms - tms y) y) else none) :=
        rfl
      rw [hsplit, listIdle_append, listIdle_single, ih hnd']
      by_cases hqx : q = x
      · subst hqx
        simp [delayNode, hx, hlt, nodeIdleDt, toDtFloat]
      · simp [delayNode, hqx, Ne.symm hqx]
    · simp only [hlt, if_false]
      rw [ih hnd']
      by_cases hqx : q = x
      · subst hqx
        simp [hx, hlt]
      · simp [hqx]

theorem btdStep_delta (props : BackendProps) (dt : ℚ) (nq : ℕ)
    (st st' : BTDState) (n : OpNode)
    (hstep : btdStep props dt insertBack nq st n = .ok st')
    (hd : n.name ≠ "delay") (hnd : n.qargs.Nodup) (q : ℕ) (hq : q < nq) :
    listBusy props dt st'.out q + listIdle dt st'.out q -
      (listBusy props dt st.out q + listIdle dt st.out q) =
      ((st'.times q : ℤ) : ℚ) - ((st.times q : ℤ) : ℚ) ∧
    listBusy props dt st'.out q - listBusy props dt st.out q =
      listBusy props dt [n] q := by
  unfold btdStep at hstep
  by_cases hb : (n.name == "barrier") = true
  · rw [if_pos hb] at hstep
    have hbname : n.name = "barrier" := by simpa using hb
    unfold btdBarrier at hstep
    cases hm : pyMax (timesList nq st.times) with
    | none => rw [hm] at hstep; exact absurd hstep (by simp)
    | some m =>
      rw [hm] at hstep
      have hst' : st' =
          ⟨fun _ => m, btdDelayFill insertBack m st.times nq st.out⟩ := by
        cases hstep
        rfl
      subst hst'
      unfold btdDelayFill
      rw [foldl_insertBack_eq]
      constructor
      · rw [listBusy_append, listIdle_append, listBusy_delayFill,
          listIdle_delayFill dt _ nq q hq]
        push_cast
        ring
      · rw [listBusy_append, listBusy_delayFill, listBusy_single]
        have hz : nodeBusyDt props dt n = 0 := by simp [nodeBusyDt, hbname]
        simp [hz]
  · rw [if_neg hb] at hstep
    by_cases hmeas : (n.name == "measure") = true
    · rw [if_pos hmeas] at hstep
      have hmname : n.name = "measure" := by simpa using hmeas
      have hst' : st' = ⟨st.times, insertBack st.out n⟩ := by
        cases hstep
        rfl
      subst hst'
      have hz : nodeBusyDt props dt n = 0 := by simp [nodeBusyDt, hmname]
      have hi : nodeIdleDt dt n = 0 := by simp [nodeIdleDt, hmname]
      constructor
      · show listBusy props dt (st.out ++ [n]) q + listIdle dt (st.out ++ [n]) q
          - _ = _
        rw [listBusy_append, listIdle_append, listBusy_single, listIdle_single]
        simp [hz, hi]
      · show listBusy props dt (st.out ++ [n]) q - _ = _
        rw [listBusy_append, listBusy_single]
        ring
    · rw [if_neg hmeas] at hstep
      have hbname : n.name ≠ "barrier" := by simpa using hb
      have hmname : n.name ≠ "measure" := by simpa using hmeas
      unfold btdNamedOp at hstep
      simp only [bind, Except.bind] at hstep
      cases he : toDtAssertExact (props.gateLength n.name n.qargs) .s dt
          (1 / 1000) with
      | error e => rw [he] at hstep; exact absurd hstep (by simp)
      | ok d =>
        rw [he] at hstep
        cases hms : pyMax (List.map st.times n.qargs) with
        | none => rw [hms] at hstep; exact absurd hstep (by simp)
        | some ms =>
          rw [hms] at hstep
          have hle : ∀ x ∈ n.qargs, st.times x ≤ ms := by
            intro x hxm
            exact pyMax_le _ _ hms (st.times x) (List.mem_map_of_mem _ hxm)
          obtain ⟨hcT, hcO⟩ := btdOpFold_char ms d n.qargs st hnd hle
          have hst' : st' = ⟨(btdOpFold insertBack ms d st n.qargs).times,
              insertBack (btdOpFold insertBack ms d st n.qargs).out n⟩ := by
            cases hstep
            rfl
          subst hst'
          have hbusyn : nodeBusyDt props dt n = ((d : ℤ) : ℚ) := by
            unfold nodeBusyDt
            rw [if_neg (by simp [hbname, hmname, hd]), he]
            rfl
          have hidlen : nodeIdleDt dt n = 0 := by simp [nodeIdleDt, hd]
          simp only [insertBack]
          rw [hcO]
          simp only [hcT q]
          rw [List.append_assoc]
          simp only [listBusy_append, listIdle_append, listBusy_single,
            listIdle_single]
          have hDB : listBusy props dt
              (List.filterMap (fun x =>
                if st.times x < ms then some (delayNode (ms - st.times x) x)
                else none) n.qargs) q = 0 := by
            refine listBusy_delays_zero props dt _ ?_ q
            intro nd hnd2
            simp only [List.mem_filterMap] at hnd2
            obtain ⟨x, _, heq⟩ := hnd2
            by_cases hlt : st.times x < ms
            · simp only [hlt, if_true, Option.some.injEq] at heq
              rw [← heq]
              rfl
            · simp [hlt] at heq
          have hDI := listIdle_opDelays dt st.times ms n.qargs hnd q
          by_cases hqm : q ∈ n.qargs
          · by_cases hlt : st.times q < ms
            · simp only [hqm, hlt, and_self, if_true] at hDI
              simp only [hDB, hDI, hcT q, hqm, if_true, hbusyn, hidlen]
              exact ⟨by push_cast; ring, by ring⟩
            · have hteq : st.times q = ms :=
                le_antisymm (hle q hqm) (not_lt.mp hlt)
              simp only [hqm, hlt, and_false, if_false] at hDI
              simp only [hDB, hDI, hcT q, hqm, if_true, hbusyn, hidlen,
                hteq]
              exact ⟨by push_cast; ring, by ring⟩
          · simp only [hqm, false_and, if_false] at hDI
            simp only [hDB, hDI, hcT q, hqm, if_false, hbusyn, hidlen]
            exact ⟨by ring, by ring⟩

theorem btd_foldlM_delta (props : BackendProps) (dt : ℚ) (nq : ℕ)
    (ns : List OpNode) :
    ∀ st st' : BTDState,
      (∀ n ∈ ns, n.name ≠ "delay") → (∀ n ∈ ns, n.qargs.Nodup) →
      ns.foldlM (btdStep props dt insertBack nq) st = .ok st' →
      ∀ q, q < nq →
      listBusy props dt st'.out q + listIdle dt st'.out q -
        (listBusy props dt st.out q + listIdle dt st.out q) =
        ((st'.times q : ℤ) : ℚ) - ((st.times q : ℤ) : ℚ) ∧
      listBusy props dt st'.out q - listBusy props dt st.out q =
        listBusy props dt ns q := by
  induction ns with
  | nil =>
    intro st st' _ _ hrun q hq
    have hst : st' = st := by
      simp only [List.foldlM_nil] at hrun
      cases hrun
      rfl
    subst hst
    simp [listBusy]
  | cons n ns ih =>
    intro st st' hd hnd hrun q hq
    rw [List.foldlM_cons] at hrun
    cases h1 : btdStep props dt insertBack nq st n with
    | error e =>
      rw [h1] at hrun
      exact absurd hrun (by simp [bind, Except.bind])
    | ok st1 =>
      rw [h1] at hrun
      have hrun2 : ns.foldlM (btdStep props dt insertBack nq) st1 =
          .ok st' := hrun
      obtain ⟨hT1, hB1⟩ := btdStep_delta props dt nq st st1 n h1
        (hd n (List.mem_cons_self n ns)) (hnd n (List.mem_cons_self n ns)) q hq
      obtain ⟨hT2, hB2⟩ := ih st1 st'
        (fun x hx => hd x (List.mem_cons_of_mem n hx))
        (fun x hx => hnd x (List.mem_cons_of_mem n hx)) hrun2 q hq
      have hsplit : listBusy props dt (n :: ns) q =
          listBusy props dt [n] q + listBusy props dt ns q := by
        rw [show (n :: ns) = [n] ++ ns from rfl, listBusy_append]
      exact ⟨by linarith, by rw [hsplit]; linarith⟩

theorem btd_run_back_char (props : BackendProps) (dt : ℚ) (nq : ℕ)
    (ns : List OpNode)
    (hd : ∀ n ∈ ns, n.name ≠ "delay") (hnd : ∀ n ∈ ns, n.qargs.Nodup)
    (st : BTDState)
    (hfold : ns.foldlM (btdStep props dt insertBack nq) ⟨fun _ => 0, []⟩ =
      .ok st)
    (m : ℤ) (hm : pyMax (timesList nq st.times) = some m)
    (q : ℕ) (hq : q < nq) :
    listBusy props dt (btdDelayFill insertBack m st.times nq st.out) q =
      listBusy props dt ns q ∧
    listBusy props dt (btdDelayFill insertBack m st.times nq st.out) q +
      listIdle dt (btdDelayFill insertBack m st.times nq st.out) q =
      (m : ℚ) := by
  obtain ⟨hT, hB⟩ := btd_foldlM_delta props dt nq ns ⟨fun _ => 0, []⟩ st
    hd hnd hfold q hq
  have h0b : listBusy props dt (BTDState.out ⟨fun _ => 0, []⟩) q = 0 := rfl
  have h0i : listIdle dt (BTDState.out ⟨fun _ => 0, []⟩) q = 0 := rfl
  have h0t : ((BTDState.times ⟨fun _ => 0, []⟩ q : ℤ) : ℚ) = 0 := by
    norm_num
  rw [h0b, h0i, h0t] at hT
  rw [h0b] at hB
  have hfill : btdDelayFill insertBack m st.times nq st.out =
      st.out ++ (List.range nq).map (fun i => delayNode (m - st.times i) i) :=
    foldl_insertBack_eq (fun i => delayNode (m - st.times i) i)
      (List.range nq) st.out
  constructor
  · rw [hfill, listBusy_append, listBusy_delayFill]
    linarith
  · rw [hfill, listBusy_append, listIdle_append, listBusy_delayFill,
      listIdle_delayFill dt (fun i => m - st.times i) nq q hq]
    push_cast at hT ⊢
    linarith

/-- C9 counterexample: busy + idle ticks per qubit are NOT preserved by
the barriers-to-delays pass.  A two-qubit circuit whose only operation
is an `x` gate on qubit 0 (3 ticks) has total 0 on qubit 1 before the
pass, but the final flush pads qubit 1 with a 3-tick delay, so the total
after the pass is 3. -/
theorem mass_conservation_counterexample :
    ∃ (props : BackendProps) (dt : ℚ) (dag g : Circuit),
      BarriersToDelaysPass.run props dt "asap" dag = .ok g ∧
      ¬ (∀ q, q < dag.nqubits →
        busyTicks props dt g q + idleTicks dt g q =
          busyTicks props dt dag q + idleTicks dt dag q) := by
  refine ⟨⟨fun _ _ => 3⟩, 1, ⟨2, [opNode "x" [0]], []⟩,
    ⟨2, [opNode "x" [0], delayNode 0 0, delayNode 3 1], []⟩, ?_, ?_⟩
  · with_unfolding_all rfl
  · intro hall
    have h1 := hall 1 (by norm_num)
    have ha : busyTicks ⟨fun _ _ => 3⟩ 1
        (⟨2, [opNode "x" [0], delayNode 0 0, delayNode 3 1], []⟩ : Circuit) 1 +
        idleTicks 1
        (⟨2, [opNode "x" [0], delayNode 0 0, delayNode 3 1], []⟩ : Circuit) 1 =
        (3 : ℚ) := by
      with_unfolding_all rfl
    have hb : busyTicks ⟨fun _ _ => 3⟩ 1
        (⟨2, [opNode "x" [0]], []⟩ : Circuit) 1 +
        idleTicks 1 (⟨2, [opNode "x" [0]], []⟩ : Circuit) 1 = (0 : ℚ) := by
      with_unfolding_all rfl
    rw [ha, hb] at h1
    norm_num at h1

/-- C9 (amended): on a delay-free input whose nodes touch each qubit at
most once per node, the barriers-to-delays pass preserves each qubit's
busy ticks exactly, and brings every qubit's busy + idle total to one
common makespan value `m` — the inserted padding redistributes idle time
but equalises (rather than preserves) each qubit's total. -/
theorem busy_preserved_and_uniform_total (props : BackendProps) (dt : ℚ)
    (method : String) (dag g : Circuit)
    (hd : ∀ n ∈ dag.nodes, n.name ≠ "delay")
    (hnd : ∀ n ∈ dag.nodes, n.qargs.Nodup)
    (hrun : BarriersToDelaysPass.run props dt method dag = .ok g) :
    ∃ m : ℤ, ∀ q, q < dag.nqubits →
      busyTicks props dt g q = busyTicks props dt dag q ∧
      busyTicks props dt g q + idleTicks dt g q = (m : ℚ) := by
  unfold BarriersToDelaysPass.run at hrun
  by_cases hmeth : (method == "alap") = true
  · simp only [hmeth, if_true] at hrun
    have hfoldrw : dag.nodes.reverse.foldlM
        (btdStep props dt insertFront dag.nqubits)
        ⟨fun _ => 0, ([] : List OpNode)⟩ =
        (dag.nodes.reverse.foldlM (btdStep props dt insertBack dag.nqubits)
          ⟨fun _ => 0, []⟩).map revSt :=
      btd_foldlM_front_rev props dt dag.nqubits dag.nodes.reverse
        ⟨fun _ => 0, []⟩
    rw [hfoldrw] at hrun
    cases hf : dag.nodes.reverse.foldlM (btdStep props dt insertBack
        dag.nqubits) ⟨fun _ => 0, []⟩ with
    | error e =>
      rw [hf] at hrun
      exact absurd hrun (by simp [Except.map, bind, Except.bind])
    | ok st =>
      rw [hf] at hrun
      have hrun2 : (btdFlush insertFront dag.nqubits (revSt st) >>=
          fun out => pure (⟨dag.nqubits, out, dag.cals⟩ : Circuit)) =
          Except.ok g := hrun
      rw [btdFlush_front_rev] at hrun2
      cases hm : pyMax (timesList dag.nqubits st.times) with
      | none =>
        have hfl : btdFlush insertBack dag.nqubits st =
            .error "ValueError: max of empty sequence" := by
          unfold btdFlush
          rw [hm]
        rw [hfl] at hrun2
        exact absurd hrun2 (by simp [Except.map, bind, Except.bind])
      | some m =>
        have hfl : btdFlush insertBack dag.nqubits st =
            .ok (btdDelayFill insertBack m st.times dag.nqubits st.out) := by
          unfold btdFlush
          rw [hm]
        rw [hfl] at hrun2
        have hok : Except.ok
            (⟨dag.nqubits, (btdDelayFill insertBack m st.times dag.nqubits
              st.out).reverse, dag.cals⟩ : Circuit) = Except.ok g := hrun2
        have hg : g = ⟨dag.nqubits, (btdDelayFill insertBack m st.times
            dag.nqubits st.out).reverse, dag.cals⟩ := (Except.ok.inj hok).symm
        subst hg
        refine ⟨m, fun q hq => ?_⟩
        obtain ⟨h1, h2⟩ := btd_run_back_char props dt dag.nqubits
          dag.nodes.reverse
          (fun x hx => hd x (List.mem_reverse.mp hx))
          (fun x hx => hnd x (List.mem_reverse.mp hx))
          st hf m hm q hq
        constructor
        · show listBusy props dt (btdDelayFill insertBack m st.times
            dag.nqubits st.out).reverse q = listBusy props dt dag.nodes q
          rw [listBusy_reverse, h1, listBusy_reverse]
        · show listBusy props dt (btdDelayFill insertBack m st.times
              dag.nqubits st.out).reverse q +
            listIdle dt (btdDelayFill insertBack m st.times
              dag.nqubits st.out).reverse q = (m : ℚ)
          rw [listBusy_reverse, listIdle_reverse]
          exact h2
  · simp only [hmeth, Bool.false_eq_true, if_false] at hrun
    cases hf : dag.nodes.foldlM (btdStep props dt insertBack dag.nqubits)
        ⟨fun _ => 0, []⟩ with
    | error e =>
      rw [hf] at hrun
      exact absurd hrun (by simp [bind, Except.bind])
    | ok st =>
      rw [hf] at hrun
      have hrun2 : (btdFlush insertBack dag.nqubits st >>=
          fun out => pure (⟨dag.nqubits, out, dag.cals⟩ : Circuit)) =
          Except.ok g := hrun
      cases hm : pyMax (timesList dag.nqubits st.times) with
      | none =>
        have hfl : btdFlush insertBack dag.nqubits st =
            .error "ValueError: max of empty sequence" := by
          unfold btdFlush
          rw [hm]
        rw [hfl] at hrun2
        exact absurd hrun2 (by simp [bind, Except.bind])
      | some m =>
        have hfl : btdFlush insertBack dag.nqubits st =
            .ok (btdDelayFill insertBack m st.times dag.nqubits st.out) := by
          unfold btdFlush
          rw [hm]
        rw [hfl] at hrun2
        have hok : Except.ok
            (⟨dag.nqubits, btdDelayFill insertBack m st.times dag.nqubits
              st.out, dag.cals⟩ : Circuit) = Except.ok g := hrun2
        have hg : g = ⟨dag.nqubits, btdDelayFill insertBack m st.times
            dag.nqubits st.out, dag.cals⟩ := (Except.ok.inj hok).symm
        subst hg
        refine ⟨m, fun q hq => ?_⟩
        exact btd_run_back_char props dt dag.nqubits dag.nodes hd hnd
          st hf m hm q hq

theorem busy_preserved_and_uniform_total_witness :
    ∃ m : ℤ, ∀ q, q < (2 : ℕ) →
      busyTicks ⟨fun _ _ => 3⟩ 1
        (⟨2, [opNode "x" [0], delayNode 0 0, delayNode 3 1], []⟩ : Circuit) q =
        busyTicks ⟨fun _ _ => 3⟩ 1 (⟨2, [opNode "x" [0]], []⟩ : Circuit) q ∧
      busyTicks ⟨fun _ _ => 3⟩ 1
        (⟨2, [opNode "x" [0], delayNode 0 0, delayNode 3 1], []⟩ : Circuit) q +
        idleTicks 1
        (⟨2, [opNode "x" [0], delayNode 0 0, delayNode 3 1], []⟩ : Circuit) q =
        (m : ℚ) :=
  busy_preserved_and_uniform_total ⟨fun _ _ => 3⟩ 1 "asap"
    ⟨2, [opNode "x" [0]], []⟩
    ⟨2, [opNode "x" [0], delayNode 0 0, delayNode 3 1], []⟩
    (by decide) (by decide) (by with_unfolding_all rfl)

/-- The emissions of the non-delay-branch flush loop, as a pure
function: the final accumulator table and the list of emitted delay
nodes (one `Delay(int(acc))` per involved qubit with a strictly
positive accumulator, which is then reset). -/
def flushEmit (A : ℕ → ℚ) : List ℕ → (ℕ → ℚ) × List OpNode
  | [] => (A, [])
  | q :: qs =>
    let e : List OpNode :=
      if 0 < A q then [delayNode (pyTrunc (A q)) q] else []
    let r := flushEmit (upd A q 0) qs
    (r.1, e ++ r.2)

/-- The accumulator content that a replay of the emitted delays
rebuilds: each qubit of `l` with a positive accumulator recovers its
value, every other qubit holds 0. -/
def pendingOf (A : ℕ → ℚ) (l : List ℕ) : ℕ → ℚ :=
  fun r => if r ∈ l ∧ 0 < A r then A r else 0

/-- Every accumulator holds an integral number of ticks. -/
def IntegralAccs (A : ℕ → ℚ) : Prop :=
  ∀ q, ∃ k : ℤ, A q = (k : ℚ)

/-- The delays emitted by the trailing flush of the merge-delays pass. -/
def finalDelays (nq : ℕ) (A : ℕ → ℚ) : List OpNode :=
  (List.range nq).filterMap (fun i =>
    if 0 < A i then some (delayNode (pyTrunc (A i)) i) else none)

theorem pyTrunc_intCast (k : ℤ) : pyTrunc ((k : ℤ) : ℚ) = k := by
  unfold pyTrunc
  by_cases h : (0 : ℚ) ≤ (k : ℚ)
  · rw [if_pos h, Int.floor_intCast]
  · rw [if_neg h, Int.ceil_intCast]

theorem foldl_flushdelays (A : ℕ → ℚ) (l : List ℕ) :
    ∀ out : List OpNode,
      l.foldl (fun acc i =>
        if 0 < A i then acc ++ [delayNode (pyTrunc (A i)) i] else acc) out =
      out ++ l.filterMap (fun i =>
        if 0 < A i then some (delayNode (pyTrunc (A i)) i) else none) := by
  induction l with
  | nil => intro out; simp
  | cons x xs ih =>
    intro out
    rw [List.foldl_cons, List.filterMap_cons]
    by_cases h : 0 < A x
    · rw [if_pos h, if_pos h, ih, List.append_assoc]
      rfl
    · rw [if_neg h, if_neg h, ih]

theorem mdFlush_eq (nq : ℕ) (st : MDState) :
    mdFlush nq st = st.out ++ finalDelays nq st.accs :=
  foldl_flushdelays st.accs (List.range nq) st.out

theorem mdFlushQ_eq (l : List ℕ) :
    ∀ (A : ℕ → ℚ) (base : List OpNode),
      mdFlushQ ⟨A, base⟩ l =
        ⟨(flushEmit A l).1, base ++ (flushEmit A l).2⟩ := by
  induction l with
  | nil => intro A base; simp [mdFlushQ, flushEmit]
  | cons q qs ih =>
    intro A base
    have hstep : mdFlushQ ⟨A, base⟩ (q :: qs) =
        mdFlushQ ⟨upd A q 0,
          if 0 < A q then base ++ [delayNode (pyTrunc (A q)) q] else base⟩
          qs := rfl
    have hfe : flushEmit A (q :: qs) =
        ((flushEmit (upd A q 0) qs).1,
         (if 0 < A q then [delayNode (pyTrunc (A q)) q] else []) ++
           (flushEmit (upd A q 0) qs).2) := rfl
    rw [hstep, hfe]
    by_cases h : 0 < A q
    · rw [if_pos h, ih]
      simp [h]
    · rw [if_neg h, ih]
      simp [h]

theorem flushEmit_fst (l : List ℕ) :
    ∀ A : ℕ → ℚ, (flushEmit A l).1 = fun r => if r ∈ l then 0 else A r := by
  induction l with
  | nil => intro A; funext r; simp [flushEmit]
  | cons q qs ih =>
    intro A
    have hfe : (flushEmit A (q :: qs)).1 = (flushEmit (upd A q 0) qs).1 := rfl
    rw [hfe, ih]
    funext r
    by_cases hr : r ∈ qs
    · simp [hr, List.mem_cons]
    · by_cases hrq : r = q
      · subst hrq
        simp [hr, upd_same]
      · simp [hr, hrq, upd, List.mem_cons]

theorem flushEmit_absorb (dt : ℚ) (l : List ℕ) :
    ∀ (A A0 : ℕ → ℚ) (base : List OpNode), IntegralAccs A →
      (flushEmit A l).2.foldl (mdStep dt) ⟨A0, base⟩ =
        ⟨fun r => A0 r + pendingOf A l r, base⟩ := by
  induction l with
  | nil =>
    intro A A0 base _
    simp [flushEmit, pendingOf]
  | cons q qs ih =>
    intro A A0 base hA
    have hfe : (flushEmit A (q :: qs)).2 =
        (if 0 < A q then [delayNode (pyTrunc (A q)) q] else []) ++
          (flushEmit (upd A q 0) qs).2 := rfl
    rw [hfe]
    have hA' : IntegralAccs (upd A q 0) := by
      intro r
      by_cases hrq : r = q
      · subst hrq
        exact ⟨0, by simp [upd_same]⟩
      · rw [upd_ne A q r 0 hrq]
        exact hA r
    by_cases h : 0 < A q
    · rw [if_pos h]
      obtain ⟨k, hk⟩ := hA q
      have habs : mdStep dt ⟨A0, base⟩ (delayNode (pyTrunc (A q)) q) =
          ⟨upd A0 q (A0 q + A q), base⟩ := by
        unfold mdStep
        simp [delayNode, toDtFloat, hk, pyTrunc_intCast]
      rw [show ([delayNode (pyTrunc (A q)) q] ++
          (flushEmit (upd A q 0) qs).2).foldl (mdStep dt) ⟨A0, base⟩ =
          (flushEmit (upd A q 0) qs).2.foldl (mdStep dt)
            (mdStep dt ⟨A0, base⟩ (delayNode (pyTrunc (A q)) q)) from by
        rw [List.singleton_append, List.foldl_cons]]
      rw [habs, ih (upd A q 0) _ base hA']
      congr 1
      funext r
      by_cases hrq : r = q
      · subst hrq
        simp [pendingOf, upd_same, h, List.mem_cons]
      · rw [upd_ne A0 q r _ hrq]
        simp [pendingOf, upd, hrq, List.mem_cons]
    · rw [if_neg h, List.nil_append, ih (upd A q 0) A0 base hA']
      congr 1
      funext r
      by_cases hrq : r = q
      · subst hrq
        simp [pendingOf, upd_same, h, List.mem_cons]
      · simp [pendingOf, upd, hrq, List.mem_cons]

theorem flushEmit_replay (l : List ℕ) :
    ∀ A : ℕ → ℚ,
      (flushEmit (pendingOf A l) l).2 = (flushEmit A l).2 := by
  induction l with
  | nil => intro A; rfl
  | cons q qs ih =>
    intro A
    have h1 : (flushEmit (pendingOf A (q :: qs)) (q :: qs)).2 =
        (if 0 < pendingOf A (q :: qs) q
         then [delayNode (pyTrunc (pendingOf A (q :: qs) q)) q] else []) ++
        (flushEmit (upd (pendingOf A (q :: qs)) q 0) qs).2 := rfl
    have h2 : (flushEmit A (q :: qs)).2 =
        (if 0 < A q then [delayNode (pyTrunc (A q)) q] else []) ++
        (flushEmit (upd A q 0) qs).2 := rfl
    rw [h1, h2]
    have hpq : pendingOf A (q :: qs) q = if 0 < A q then A q else 0 := by
      simp [pendingOf, List.mem_cons]
    have hupd : upd (pendingOf A (q :: qs)) q 0 =
        pendingOf (upd A q 0) qs := by
      funext r
      by_cases hrq : r = q
      · subst hrq
        simp [upd_same, pendingOf, lt_irrefl]
      · simp [upd, hrq, pendingOf, List.mem_cons]
    rw [hupd, ih (upd A q 0)]
    by_cases h : 0 < A q
    · rw [hpq, if_pos h]
    · rw [hpq, if_neg h]
      simp [h, lt_irrefl]

theorem flushEmit_nodup_eq (l : List ℕ) :
    ∀ A : ℕ → ℚ, l.Nodup →
      (flushEmit A l).2 = l.filterMap (fun i =>
        if 0 < A i then some (delayNode (pyTrunc (A i)) i) else none) := by
  induction l with
  | nil => intro A _; rfl
  | cons q qs ih =>
    intro A hnd
    have hq : q ∉ qs := (List.nodup_cons.mp hnd).1
    have hnd' : qs.Nodup := (List.nodup_cons.mp hnd).2
    have h2 : (flushEmit A (q :: qs)).2 =
        (if 0 < A q then [delayNode (pyTrunc (A q)) q] else []) ++
          (flushEmit (upd A q 0) qs).2 := rfl
    rw [h2, ih (upd A q 0) hnd']
    have hcong : qs.filterMap (fun i =>
        if 0 < upd A q 0 i then some (delayNode (pyTrunc (upd A q 0 i)) i)
        else none) = qs.filterMap (fun i =>
        if 0 < A i then some (delayNode (pyTrunc (A i)) i) else none) := by
      apply List.filterMap_congr
      intro i hi
      rw [upd_ne A q i 0 (fun h => hq (h ▸ hi))]
    rw [hcong, List.filterMap_cons]
    by_cases h : 0 < A q
    · simp [h]
    · simp [h]

theorem integral_foldl_add (c : ℚ) (hc : ∃ k : ℤ, c = (k : ℚ))
    (l : List ℕ) :
    ∀ A : ℕ → ℚ, IntegralAccs A →
      IntegralAccs (l.foldl (fun a q => upd a q (a q + c)) A) := by
  induction l with
  | nil => intro A hA; exact hA
  | cons q qs ih =>
    intro A hA
    rw [List.foldl_cons]
    refine ih _ ?_
    intro r
    by_cases hrq : r = q
    · subst hrq
      obtain ⟨k1, hk1⟩ := hA r
      obtain ⟨k2, hk2⟩ := hc
      refine ⟨k1 + k2, ?_⟩
      rw [upd_same, hk1, hk2]
      push_cast
      ring
    · rw [upd_ne A q r _ hrq]
      exact hA r

theorem mdStep_preserves (dt : ℚ) (A : ℕ → ℚ) (out : List OpNode)
    (n : OpNode) (hA : IntegralAccs A)
    (hR : out.foldl (mdStep dt) ⟨fun _ => 0, []⟩ = ⟨fun _ => 0, out⟩)
    (hn : n.name = "delay" →
      ∃ k : ℤ, toDtFloat n.duration n.tunit dt = (k : ℚ)) :
    IntegralAccs (mdStep dt ⟨A, out⟩ n).accs ∧
    (mdStep dt ⟨A, out⟩ n).out.foldl (mdStep dt) ⟨fun _ => 0, []⟩ =
      ⟨fun _ => 0, (mdStep dt ⟨A, out⟩ n).out⟩ := by
  by_cases hname : (n.name == "delay") = true
  · have hdeq : n.name = "delay" := by simpa using hname
    have hstep : mdStep dt ⟨A, out⟩ n =
        ⟨n.qargs.foldl (fun a q =>
            upd a q (a q + toDtFloat n.duration n.tunit dt)) A, out⟩ := by
      unfold mdStep
      rw [if_pos hname]
    rw [hstep]
    exact ⟨integral_foldl_add _ (hn hdeq) n.qargs A hA, hR⟩
  · have hstep : mdStep dt ⟨A, out⟩ n =
        ⟨(flushEmit A n.qargs).1,
         (out ++ (flushEmit A n.qargs).2) ++ [n]⟩ := by
      unfold mdStep
      rw [if_neg hname]
      show (⟨(mdFlushQ ⟨A, out⟩ n.qargs).accs,
        (mdFlushQ ⟨A, out⟩ n.qargs).out ++ [n]⟩ : MDState) = _
      rw [mdFlushQ_eq n.qargs A out]
    rw [hstep]
    constructor
    · rw [flushEmit_fst]
      intro r
      by_cases hr : r ∈ n.qargs
      · exact ⟨0, by simp [hr]⟩
      · obtain ⟨k, hk⟩ := hA r
        exact ⟨k, by simp [hr, hk]⟩
    · rw [List.foldl_append, List.foldl_append, hR,
        flushEmit_absorb dt n.qargs A (fun _ => 0) out hA,
        List.foldl_cons, List.foldl_nil]
      have hzero : (fun r => (0 : ℚ) + pendingOf A n.qargs r) =
          pendingOf A n.qargs := by
        funext r
        ring
      rw [hzero]
      have hstep2 : mdStep dt ⟨pendingOf A n.qargs, out⟩ n =
          ⟨(flushEmit (pendingOf A n.qargs) n.qargs).1,
           (out ++ (flushEmit (pendingOf A n.qargs) n.qargs).2) ++ [n]⟩ := by
        unfold mdStep
        rw [if_neg hname]
        show (⟨(mdFlushQ ⟨pendingOf A n.qargs, out⟩ n.qargs).accs,
          (mdFlushQ ⟨pendingOf A n.qargs, out⟩ n.qargs).out ++ [n]⟩ :
            MDState) = _
        rw [mdFlushQ_eq n.qargs (pendingOf A n.qargs) out]
      rw [hstep2, flushEmit_replay n.qargs A]
      congr 1
      rw [flushEmit_fst]
      funext r
      by_cases hr : r ∈ n.qargs
      · simp [hr]
      · simp [hr, pendingOf]

theorem md_run_invariant (dt : ℚ) (l : List OpNode) :
    (∀ n ∈ l, n.name = "delay" →
      ∃ k : ℤ, toDtFloat n.duration n.tunit dt = (k : ℚ)) →
    IntegralAccs (l.foldl (mdStep dt) ⟨fun _ => 0, []⟩).accs ∧
    ((l.foldl (mdStep dt) ⟨fun _ => 0, []⟩).out.foldl (mdStep dt)
        ⟨fun _ => 0, []⟩ =
      ⟨fun _ => 0, (l.foldl (mdStep dt) ⟨fun _ => 0, []⟩).out⟩) := by
  induction l using List.reverseRecOn with
  | nil =>
    intro _
    exact ⟨fun q => ⟨0, by norm_num⟩, rfl⟩
  | append_singleton l n ih =>
    intro hint
    obtain ⟨ihA, ihR⟩ := ih (fun m hm => hint m (List.mem_append_left _ hm))
    rw [List.foldl_append, List.foldl_cons, List.foldl_nil]
    rcases hSt : l.foldl (mdStep dt) ⟨fun _ => 0, []⟩ with ⟨A, out⟩
    rw [hSt] at ihA ihR
    exact mdStep_preserves dt A out n ihA ihR
      (fun hd => hint n (List.mem_append_right _ (List.mem_singleton_self n))
        hd)

/-- C6 counterexample: merge-delays is NOT idempotent on all inputs.  A
half-tick delay leaves the float accumulator at 0.5, so the final flush
emits `Delay(int(0.5)) = Delay(0)`; re-running the pass absorbs that
zero-duration delay and, the accumulator no longer being positive,
never re-emits it — the second run drops the node. -/
theorem merge_delays_not_idempotent_counterexample :
    ∃ (dt : ℚ) (dag : Circuit),
      MergeDelaysPass.run dt (MergeDelaysPass.run dt dag) ≠
        MergeDelaysPass.run dt dag := by
  refine ⟨1, ⟨1, [⟨"delay", [0], 1 / 2, .dtu⟩], []⟩, ?_⟩
  have h1 : MergeDelaysPass.run 1
      (⟨1, [⟨"delay", [0], 1 / 2, .dtu⟩], []⟩ : Circuit) =
      ⟨1, [delayNode 0 0], []⟩ := by
    with_unfolding_all rfl
  have h2 : MergeDelaysPass.run 1 (⟨1, [delayNode 0 0], []⟩ : Circuit) =
      ⟨1, [], []⟩ := by
    with_unfolding_all rfl
  rw [h1, h2]
  intro h
  simp [Circuit.mk.injEq] at h

/-- C6 (amended): merge-delays is idempotent on every input graph whose
delay durations convert to whole numbers of ticks (in particular on any
graph whose delays are integer-valued `dt`-unit delays); the
accumulator then always holds an integer, `int(acc)` loses nothing, and
re-running the pass reproduces its own output exactly. -/
theorem merge_delays_idempotent_on_integer_ticks (dt : ℚ) (dag : Circuit)
    (hint : ∀ n ∈ dag.nodes, n.name = "delay" →
      ∃ k : ℤ, toDtFloat n.duration n.tunit dt = (k : ℚ)) :
    MergeDelaysPass.run dt (MergeDelaysPass.run dt dag) =
      MergeDelaysPass.run dt dag := by
  obtain ⟨hA, hR⟩ := md_run_invariant dt dag.nodes hint
  unfold MergeDelaysPass.run
  rcases hSt : dag.nodes.foldl (mdStep dt) ⟨fun _ => 0, []⟩ with ⟨A, out⟩
  rw [hSt] at hA hR
  have hA' : IntegralAccs A := hA
  have hR' : out.foldl (mdStep dt) ⟨fun _ => 0, []⟩ = ⟨fun _ => 0, out⟩ := hR
  show (⟨dag.nqubits,
      mdFlush dag.nqubits ((mdFlush dag.nqubits ⟨A, out⟩).foldl (mdStep dt)
        ⟨fun _ => 0, []⟩),
      dag.cals⟩ : Circuit) =
    ⟨dag.nqubits, mdFlush dag.nqubits ⟨A, out⟩, dag.cals⟩
  have hnodes : mdFlush dag.nqubits ((mdFlush dag.nqubits ⟨A, out⟩).foldl
      (mdStep dt) ⟨fun _ => 0, []⟩) = mdFlush dag.nqubits ⟨A, out⟩ := by
    have hF : mdFlush dag.nqubits ⟨A, out⟩ =
        out ++ finalDelays dag.nqubits A := mdFlush_eq _ _
    rw [hF, List.foldl_append, hR']
    have hE : finalDelays dag.nqubits A =
        (flushEmit A (List.range dag.nqubits)).2 :=
      (flushEmit_nodup_eq (List.range dag.nqubits) A
        (List.nodup_range dag.nqubits)).symm
    rw [hE, flushEmit_absorb dt (List.range dag.nqubits) A (fun _ => 0)
      out hA']
    have hzero : (fun r => (0 : ℚ) +
        pendingOf A (List.range dag.nqubits) r) =
        pendingOf A (List.range dag.nqubits) := by
      funext r
      ring
    rw [hzero, mdFlush_eq]
    show out ++ finalDelays dag.nqubits
        (pendingOf A (List.range dag.nqubits)) = _
    have hcong : finalDelays dag.nqubits
        (pendingOf A (List.range dag.nqubits)) =
        finalDelays dag.nqubits A := by
      unfold finalDelays
      apply List.filterMap_congr
      intro i hi
      have hPi : pendingOf A (List.range dag.nqubits) i =
          if 0 < A i then A i else 0 := by
        simp [pendingOf, hi]
      rw [hPi]
      by_cases h : 0 < A i
      · simp [h]
      · simp [h]
    rw [hcong, hE]
  exact congrArg (fun ns => (⟨dag.nqubits, ns, dag.cals⟩ : Circuit)) hnodes

theorem merge_delays_idempotent_on_integer_ticks_witness :
    MergeDelaysPass.run 1 (MergeDelaysPass.run 1
      ⟨1, [delayNode 2 0, opNode "x" [0]], []⟩) =
      MergeDelaysPass.run 1 ⟨1, [delayNode 2 0, opNode "x" [0]], []⟩ :=
  merge_delays_idempotent_on_integer_ticks 1
    ⟨1, [delayNode 2 0, opNode "x" [0]], []⟩
    (by
      intro n hn hd
      rcases List.mem_cons.mp hn with h | h
      · subst h
        exact ⟨2, rfl⟩
      · rw [List.mem_singleton] at h
        subst h
        exact absurd hd (by decide))
